import Mathlib

/-!
Verification of the workflow-execution core of the AI-workflow-automation
backend.  The Lean definitions below are shallow embeddings of the Python
services in `backend/app/services` and `backend/app/node_handlers`:

* `GraphSvc`    — `graph_service.py` (adjacency lists, Kahn's algorithm,
                  BFS reachability, `validate_graph`),
* `ExecSvc`     — `execution_service.py` / `workflow_run_service.py` /
                  `node_run_service.py` (run lifecycle, fail-fast node loop),
* `Render`      — the two template renderers (`http_request.py`'s
                  `str.format`-based `_render_template` and
                  `llm_service.py`'s `str.replace`-based loop),
* `LLMFmt`      — `llm_service.py`'s `_format_template_value`,
* `Dispatch`    — `node_handler_service.py`'s handler registry.

Node ids (UUID strings in Python) are modelled as natural numbers: the code
only ever compares them for equality and stores them in dictionaries.
Python dicts keyed by node id are modelled as functions/association lists;
all theorems about graphs assume the node-id list has no duplicates, which
holds in the source because ids are database primary keys.  Python's
unbounded while-loops are modelled with an explicit fuel parameter large
enough to be proven sufficient; `none` marks the (never reached) fuel
exhaustion or a Python `KeyError`.
-/

deriving instance DecidableEq for Except

namespace GraphSvc

abbrev NodeId := Nat

/-- A directed edge `source_node_id → target_node_id` (`Edge` model). -/
abbrev GEdge := NodeId × NodeId

/-- The four graph-validation exceptions of `app/exceptions.py`. -/
inductive GraphError where
  | noStartNode
  | cycleDetected
  | unreachableNode
  | disconnectedGraph
deriving DecidableEq, Repr

/-- `build_adjacency_list nodes edges` keyed at `n`: the list of child ids of
`n`, in edge-list order.  The Python dict has a key for every node (even
isolated ones) and appends `target` whenever `source` is a key; looking up a
non-node returns `[]` here, mirroring the `adj_list.get(current, [])` reads. -/
def childrenOf (nodes : List NodeId) (edges : List GEdge) (n : NodeId) : List NodeId :=
  if n ∈ nodes then (edges.filter (fun e => e.1 == n)).map (fun e => e.2) else []

/-- The in-degree of `n` computed by `build_reverse_adjacency_list` +
`len(parents)`: the number of edges whose target is `n` (the reverse map
appends `source` whenever `target` is a key, with no guard on `source`). -/
def indeg (edges : List GEdge) (n : NodeId) : Nat :=
  (edges.filter (fun e => e.2 == n)).length

/-- `find_start_nodes`: node ids with zero in-degree, in node-list order
(the reverse-adjacency dict iterates keys in insertion order). -/
def startNodes (nodes : List NodeId) (edges : List GEdge) : List NodeId :=
  nodes.filter (fun n => indeg edges n == 0)

/-- One pass of the inner `for child in adj_list[current]` loop of Kahn's
algorithm: decrement `in_degree[child]` (a `KeyError` — modelled as `none` —
if `child` is not a key) and enqueue `child` when its in-degree reaches 0. -/
def processChildren (nodes : List NodeId) :
    List NodeId → (NodeId → Int) → List NodeId → Option ((NodeId → Int) × List NodeId)
  | [], deg, q => some (deg, q)
  | c :: cs, deg, q =>
    if c ∈ nodes then
      processChildren nodes cs (fun x => if x = c then deg c - 1 else deg x)
        (if deg c - 1 = 0 then q ++ [c] else q)
    else none

/-- The `while queue:` loop of `topological_sort`: pop the front of the
queue, append it to the output, then process its children. -/
def kahnLoop (nodes : List NodeId) (edges : List GEdge) :
    Nat → List NodeId → (NodeId → Int) → List NodeId → Option (List NodeId)
  | 0, _, _, _ => none
  | _ + 1, [], _, sorted => some sorted
  | fuel + 1, current :: rest, deg, sorted =>
    match processChildren nodes (childrenOf nodes edges current) deg rest with
    | none => none
    | some (deg', q') => kahnLoop nodes edges fuel q' deg' (sorted ++ [current])

/-- `GraphService.topological_sort`.  Returns `[]` for an empty node list,
raises `NoStartNodeError` when no node has in-degree zero, runs Kahn's
algorithm, and raises `CycleError` when the produced order is shorter than
the node list.  The fuel `nodes.length + 1` is proven sufficient below. -/
def topological_sort (nodes : List NodeId) (edges : List GEdge) :
    Option (Except GraphError (List NodeId)) :=
  if nodes.isEmpty then some (.ok [])
  else
    let queue := startNodes nodes edges
    if queue.isEmpty then some (.error .noStartNode)
    else
      match kahnLoop nodes edges (nodes.length + 1) queue
          (fun n => (indeg edges n : Int)) [] with
      | none => none
      | some sorted =>
        if sorted.length = nodes.length then some (.ok sorted)
        else some (.error .cycleDetected)

/-- Fuel for the BFS of `find_reachable_nodes`: every queue pop either skips
an already-visited id or visits a fresh id and enqueues at most its children,
so pops are bounded by this quantity (proven below). -/
def reachFuel (nodes : List NodeId) (edges : List GEdge) (start : List NodeId) : Nat :=
  start.length + nodes.length +
    (nodes.map (fun n => (childrenOf nodes edges n).length)).sum + 1

/-- The `while queue:` loop of `find_reachable_nodes`: pop, skip if already
reachable, otherwise mark reachable and enqueue the unvisited children.
`reach` is the Python set in insertion order (it never holds duplicates). -/
def reachLoop (nodes : List NodeId) (edges : List GEdge) :
    Nat → List NodeId → List NodeId → Option (List NodeId)
  | 0, _, _ => none
  | _ + 1, [], reach => some reach
  | fuel + 1, c :: rest, reach =>
    if c ∈ reach then reachLoop nodes edges fuel rest reach
    else
      reachLoop nodes edges fuel
        (rest ++ (childrenOf nodes edges c).filter (fun x => !((reach ++ [c]).contains x)))
        (reach ++ [c])

/-- `GraphService.find_reachable_nodes` (BFS from the start nodes). -/
def find_reachable_nodes (nodes : List NodeId) (edges : List GEdge)
    (start : List NodeId) : Option (List NodeId) :=
  reachLoop nodes edges (reachFuel nodes edges start) start []

/-- The dictionary returned by `GraphService.validate_graph` (sets are
modelled as duplicate-free lists; `unreachable_nodes` is listed in node-list
order, the Python `list(set - set)` order being unspecified). -/
structure ValidationResult where
  start_nodes : List NodeId
  sorted_nodes : List NodeId
  reachable_nodes : List NodeId
  unreachable_nodes : List NodeId
deriving DecidableEq, Repr

/-- `GraphService.validate_graph`: start-node check, cycle check via
`topological_sort`, reachability check, disconnected-component check. -/
def validate_graph (nodes : List NodeId) (edges : List GEdge)
    (allow_disconnected : Bool) : Option (Except GraphError ValidationResult) :=
  if nodes.isEmpty then some (.ok ⟨[], [], [], []⟩)
  else
    let start := startNodes nodes edges
    if start.isEmpty then some (.error .noStartNode)
    else
      match topological_sort nodes edges with
      | none => none
      | some (.error e) => some (.error e)
      | some (.ok sorted) =>
        match find_reachable_nodes nodes edges start with
        | none => none
        | some reach =>
          let unreachable := nodes.filter (fun n => !(reach.contains n))
          if !unreachable.isEmpty && !allow_disconnected then
            some (.error .unreachableNode)
          else if !allow_disconnected && reach.length ≠ nodes.length then
            some (.error .disconnectedGraph)
          else some (.ok ⟨start, sorted, reach, unreachable⟩)

/-- `GraphService.get_execution_order`: validate with
`allow_disconnected=False` and return the sorted order. -/
def get_execution_order (nodes : List NodeId) (edges : List GEdge) :
    Option (Except GraphError (List NodeId)) :=
  match validate_graph nodes edges false with
  | none => none
  | some (.error e) => some (.error e)
  | some (.ok r) => some (.ok r.sorted_nodes)

/-- Well-formedness used throughout: every edge endpoint is a listed node
(node ids are foreign keys onto the workflow's nodes in the database). -/
@[reducible]
def EdgesWF (nodes : List NodeId) (edges : List GEdge) : Prop :=
  ∀ e ∈ edges, e.1 ∈ nodes ∧ e.2 ∈ nodes

/-- The edge relation of the graph. -/
@[reducible]
def ERel (edges : List GEdge) (u v : NodeId) : Prop := (u, v) ∈ edges

/-- A graph is acyclic when no node can reach itself through one or more
edges. -/
def Acyclic (edges : List GEdge) : Prop :=
  ∀ v, ¬ Relation.TransGen (ERel edges) v v

/-- Position of the first occurrence of `a` in `l` (length of `l` when
absent); used to state "source appears before target". -/
def idxIn : List NodeId → NodeId → Nat
  | [], _ => 0
  | b :: t, a => if b = a then 0 else idxIn t a + 1

/-- Number of edges into `n` whose source has not yet been emitted into the
partial order `s`; the quantity tracked by `in_degree` during Kahn's loop. -/
def remDeg (edges : List GEdge) (s : List NodeId) (n : NodeId) : Nat :=
  (edges.filter (fun e => e.2 == n && !(s.contains e.1))).length

section ListHelpers

theorem idxIn_append_left {a : NodeId} {l : List NodeId} (l' : List NodeId)
    (h : a ∈ l) : idxIn (l ++ l') a = idxIn l a := by
  induction l with
  | nil => cases h
  | cons b t ih =>
    by_cases hba : b = a
    · simp [idxIn, hba]
    · have : a ∈ t := by
        rcases List.mem_cons.mp h with h' | h'
        · exact absurd h'.symm hba
        · exact h'
      simp [idxIn, hba, ih this]

theorem idxIn_append_right {a : NodeId} {l : List NodeId} (l' : List NodeId)
    (h : a ∉ l) : idxIn (l ++ l') a = l.length + idxIn l' a := by
  induction l with
  | nil => simp [idxIn]
  | cons b t ih =>
    have hba : b ≠ a := fun hh => h (hh ▸ List.mem_cons_self ..)
    have hat : a ∉ t := fun hh => h (List.mem_cons_of_mem _ hh)
    simp [idxIn, hba, ih hat]
    omega

theorem idxIn_lt_length {a : NodeId} {l : List NodeId} (h : a ∈ l) :
    idxIn l a < l.length := by
  induction l with
  | nil => cases h
  | cons b t ih =>
    by_cases hba : b = a
    · simp [idxIn, hba]
    · have : a ∈ t := by
        rcases List.mem_cons.mp h with h' | h'
        · exact absurd h'.symm hba
        · exact h'
      simp [idxIn, hba]
      exact ih this

theorem filterLen_mono {α : Type} {l : List α} {p q : α → Bool}
    (h : ∀ x ∈ l, p x = true → q x = true) :
    (l.filter p).length ≤ (l.filter q).length := by
  induction l with
  | nil => simp
  | cons a t ih =>
    have ih' := ih (fun x hx => h x (List.mem_cons_of_mem _ hx))
    by_cases hp : p a = true
    · have hq := h a (List.mem_cons_self ..) hp
      simp [List.filter_cons, hp, hq]
      omega
    · cases hq : q a <;>
        simp [List.filter_cons, hp, hq] <;> omega

theorem filterLen_split {α : Type} (l : List α) (p q : α → Bool) :
    (l.filter p).length =
      (l.filter (fun a => p a && q a)).length +
      (l.filter (fun a => p a && !q a)).length := by
  induction l with
  | nil => simp
  | cons a t ih =>
    cases hp : p a <;> cases hq : q a <;>
      simp [List.filter_cons, hp, hq, ih] <;> omega

theorem count_map_snd (l : List GEdge) (n : NodeId) :
    ((l.map (fun e => e.2)).count n) = (l.filter (fun e => e.2 == n)).length := by
  induction l with
  | nil => simp
  | cons a t ih =>
    by_cases h : a.2 = n <;>
      simp [List.count_cons, List.filter_cons, h, ih]

theorem nodup_sub_length_le {l m : List NodeId} (hl : l.Nodup) (hsub : ∀ x ∈ l, x ∈ m) :
    l.length ≤ m.length :=
  (hl.subperm (fun _ hx => hsub _ hx)).length_le

theorem nodup_sub_missing_length_lt {l m : List NodeId} (hl : l.Nodup)
    (hsub : ∀ x ∈ l, x ∈ m) (v : NodeId) (hvm : v ∈ m) (hvl : v ∉ l) :
    l.length < m.length := by
  have hsub' : ∀ x ∈ l, x ∈ m.erase v := by
    intro x hx
    have hxv : x ≠ v := fun h => hvl (h ▸ hx)
    exact (List.mem_erase_of_ne hxv).mpr (hsub _ hx)
  have h1 : l.length ≤ (m.erase v).length := nodup_sub_length_le hl hsub'
  have h2 : (m.erase v).length = m.length - 1 := List.length_erase_of_mem hvm
  have h3 : 1 ≤ m.length := List.length_pos.mpr (List.ne_nil_of_mem hvm)
  omega

theorem sum_filter_ne {l : List NodeId} (f : NodeId → Nat) {c : NodeId}
    (hl : l.Nodup) (hc : c ∈ l) :
    (((l.filter (fun x => x != c)).map f).sum) + f c = ((l.map f).sum) := by
  induction l with
  | nil => cases hc
  | cons a t ih =>
    rcases List.nodup_cons.mp hl with ⟨hat, htn⟩
    by_cases hac : a = c
    · subst hac
      have : t.filter (fun x => x != a) = t := by
        apply List.filter_eq_self.mpr
        intro x hx
        simp only [bne_iff_ne, ne_eq, decide_eq_true_eq]
        exact fun h => hat (h ▸ hx)
      simp [List.filter_cons, this]
      omega
    · have hct : c ∈ t := by
        rcases List.mem_cons.mp hc with h | h
        · exact absurd h.symm hac
        · exact h
      have hac' : (a != c) = true := by simp [bne_iff_ne]; exact hac
      simp [List.filter_cons, hac', ← ih htn hct]
      omega

theorem sum_map_one_add (l : List NodeId) (f : NodeId → Nat) :
    ((l.map (fun n => 1 + f n)).sum) = l.length + (l.map f).sum := by
  induction l with
  | nil => simp
  | cons a t ih => simp [ih]; omega

theorem contains_eq (s : List NodeId) (a : NodeId) :
    s.contains a = decide (a ∈ s) := by
  by_cases h : a ∈ s <;> simp [h]

theorem beqNat (a b : Nat) : (a == b) = decide (a = b) := rfl

end ListHelpers

section DegreeLemmas

theorem remDeg_nil (edges : List GEdge) (n : NodeId) :
    remDeg edges [] n = indeg edges n := by
  unfold remDeg indeg
  congr 1
  apply List.filter_congr
  intro e _
  simp

theorem remDeg_anti (edges : List GEdge) (s t : List NodeId) (n : NodeId) :
    remDeg edges (s ++ t) n ≤ remDeg edges s n := by
  apply filterLen_mono
  intro e _ he
  simp only [contains_eq, Bool.and_eq_true, Bool.not_eq_true',
    decide_eq_false_iff_not, List.mem_append] at he ⊢
  exact ⟨he.1, fun h => he.2 (Or.inl h)⟩

theorem children_sub_nodes {nodes : List NodeId} {edges : List GEdge}
    (hE : EdgesWF nodes edges) {u c : NodeId} (hc : c ∈ childrenOf nodes edges u) :
    c ∈ nodes := by
  unfold childrenOf at hc
  by_cases hu : u ∈ nodes
  · simp only [if_pos hu, List.mem_map, List.mem_filter] at hc
    obtain ⟨e, ⟨he, _⟩, rfl⟩ := hc
    exact (hE e he).2
  · simp [if_neg hu] at hc

theorem mem_children_iff {nodes : List NodeId} {edges : List GEdge}
    {u : NodeId} (hu : u ∈ nodes) (c : NodeId) :
    c ∈ childrenOf nodes edges u ↔ (u, c) ∈ edges := by
  unfold childrenOf
  simp only [if_pos hu, List.mem_map, List.mem_filter]
  constructor
  · rintro ⟨e, ⟨he, heq⟩, rfl⟩
    have : e.1 = u := by simpa using heq
    rcases e with ⟨a, b⟩
    simp only at this
    subst this
    exact he
  · intro h
    exact ⟨(u, c), ⟨h, by simp⟩, rfl⟩

theorem children_count {nodes : List NodeId} {edges : List GEdge}
    {u : NodeId} (hu : u ∈ nodes) (n : NodeId) :
    (childrenOf nodes edges u).count n =
      (edges.filter (fun e => e.1 == u && e.2 == n)).length := by
  unfold childrenOf
  rw [if_pos hu, count_map_snd, List.filter_filter]
  congr 1
  apply List.filter_congr
  intro e _
  exact Bool.and_comm _ _

theorem children_count_le_remDeg {nodes : List NodeId} {edges : List GEdge}
    {u : NodeId} {s : List NodeId} (hu : u ∈ nodes) (hus : u ∉ s) (n : NodeId) :
    (childrenOf nodes edges u).count n ≤ remDeg edges s n := by
  rw [children_count hu]
  apply filterLen_mono
  intro e _ he
  simp only [Bool.and_eq_true, beq_iff_eq] at he
  simp only [contains_eq, Bool.and_eq_true, beq_iff_eq, Bool.not_eq_true',
    decide_eq_false_iff_not]
  exact ⟨he.2, he.1 ▸ hus⟩

theorem remDeg_append_one {nodes : List NodeId} {edges : List GEdge}
    {u : NodeId} {s : List NodeId} (hu : u ∈ nodes) (hus : u ∉ s) (n : NodeId) :
    remDeg edges s n =
      remDeg edges (s ++ [u]) n + (childrenOf nodes edges u).count n := by
  rw [children_count hu]
  unfold remDeg
  rw [filterLen_split edges (fun e => e.2 == n && !(s.contains e.1))
    (fun e => e.1 == u)]
  have h1 : (edges.filter (fun e => (e.2 == n && !(s.contains e.1)) && e.1 == u)) =
      (edges.filter (fun e => e.1 == u && e.2 == n)) := by
    apply List.filter_congr
    intro e _
    simp only [beqNat, contains_eq]
    by_cases h2 : e.2 = n <;> by_cases hsu : e.1 = u <;>
      simp [h2, hsu, hus]
  have h2 : (edges.filter (fun e => (e.2 == n && !(s.contains e.1)) && !(e.1 == u))) =
      (edges.filter (fun e => e.2 == n && !((s ++ [u]).contains e.1))) := by
    apply List.filter_congr
    intro e _
    simp only [beqNat, contains_eq]
    by_cases h2 : e.2 = n <;> by_cases hsu : e.1 = u <;>
      by_cases hmem : e.1 ∈ s <;>
      simp [h2, hsu, hmem]
  rw [h1, h2]
  omega

theorem remDeg_zero_sources {edges : List GEdge} {s : List NodeId} {n : NodeId}
    (h : remDeg edges s n = 0) {e : GEdge} (he : e ∈ edges) (ht : e.2 = n) :
    e.1 ∈ s := by
  unfold remDeg at h
  rw [List.length_eq_zero] at h
  have := List.filter_eq_nil_iff.mp h e he
  simp only [contains_eq, Bool.and_eq_true, Bool.not_eq_true',
    decide_eq_false_iff_not, beq_iff_eq, not_and] at this
  by_contra hns
  exact this ht hns

end DegreeLemmas

section KahnInvariant

/-- Invariant of the Kahn loop: the queue holds exactly the unfinished nodes
with zero remaining in-degree, `deg` tracks remaining in-degrees, the emitted
prefix `s` is a duplicate-free topologically-ordered subset of the nodes. -/
structure KInv (nodes : List NodeId) (edges : List GEdge)
    (q : List NodeId) (deg : NodeId → Int) (s : List NodeId) : Prop where
  nodup : (s ++ q).Nodup
  mem : ∀ x ∈ s ++ q, x ∈ nodes
  deg_eq : ∀ n ∈ nodes, deg n = (remDeg edges s n : Int)
  queue_iff : ∀ n ∈ nodes, (n ∈ q ↔ (remDeg edges s n = 0 ∧ n ∉ s))
  s_deg : ∀ n ∈ s, remDeg edges s n = 0
  topo : ∀ e ∈ edges, e.2 ∈ s → e.1 ∈ s ∧ idxIn s e.1 < idxIn s e.2

theorem nodup_append_singleton {l : List NodeId} {c : NodeId}
    (hl : l.Nodup) (hc : c ∉ l) : (l ++ [c]).Nodup := by
  rw [List.nodup_append]
  refine ⟨hl, List.nodup_singleton c, ?_⟩
  intro a ha hac
  rcases List.mem_singleton.mp hac with rfl
  exact hc ha

theorem processChildren_spec {nodes : List NodeId} {edges : List GEdge}
    (hE : EdgesWF nodes edges)
    {s : List NodeId} {current : NodeId}
    (hcn : current ∈ nodes) (hcs : current ∉ s)
    (hs' : ∀ n ∈ s ++ [current], remDeg edges s n = 0) :
    ∀ (cs2 cs1 : List NodeId) (deg : NodeId → Int) (q : List NodeId),
      childrenOf nodes edges current = cs1 ++ cs2 →
      (∀ n ∈ nodes, deg n = (remDeg edges s n : Int) - (cs1.count n : Int)) →
      (∀ n ∈ nodes, (n ∈ q ↔ (remDeg edges s n = cs1.count n ∧ n ∉ s ++ [current]))) →
      ((s ++ [current]) ++ q).Nodup →
      (∀ x ∈ (s ++ [current]) ++ q, x ∈ nodes) →
      ∃ deg' q', processChildren nodes cs2 deg q = some (deg', q') ∧
        (∀ n ∈ nodes, deg' n = (remDeg edges s n : Int) -
          ((childrenOf nodes edges current).count n : Int)) ∧
        (∀ n ∈ nodes, (n ∈ q' ↔ (remDeg edges s n =
          (childrenOf nodes edges current).count n ∧ n ∉ s ++ [current]))) ∧
        ((s ++ [current]) ++ q').Nodup ∧
        (∀ x ∈ (s ++ [current]) ++ q', x ∈ nodes) := by
  intro cs2
  induction cs2 with
  | nil =>
    intro cs1 deg q hsplit hdeg hq hnd hm
    rw [List.append_nil] at hsplit
    subst hsplit
    exact ⟨deg, q, rfl, hdeg, hq, hnd, hm⟩
  | cons c cs2' ih =>
    intro cs1 deg q hsplit hdeg hq hnd hm
    have hcC : c ∈ childrenOf nodes edges current := by
      rw [hsplit]
      exact List.mem_append_right _ (List.mem_cons_self ..)
    have hcNodes : c ∈ nodes := children_sub_nodes hE hcC
    have hcount_split : (childrenOf nodes edges current).count c =
        cs1.count c + (c :: cs2').count c := by
      rw [hsplit, List.count_append]
    have hone : 1 ≤ (c :: cs2').count c := by
      simp [List.count_cons]
    have hbound : (childrenOf nodes edges current).count c ≤ remDeg edges s c :=
      children_count_le_remDeg hcn hcs c
    have hrem_ge : cs1.count c + 1 ≤ remDeg edges s c := by omega
    have hcs' : c ∉ s ++ [current] := by
      intro h
      have := hs' c h
      omega
    have hdegc : deg c = (remDeg edges s c : Int) - (cs1.count c : Int) :=
      hdeg c hcNodes
    have hcq : c ∉ q := by
      intro h
      have := (hq c hcNodes).mp h
      omega
    have hcnt_self : (cs1 ++ [c]).count c = cs1.count c + 1 := by
      simp [List.count_append]
    have hcnt_other : ∀ n, ¬ n = c → (cs1 ++ [c]).count n = cs1.count n := by
      intro n h
      simp [List.count_append, List.count_cons, h]
    -- the new split for the induction hypothesis
    have hsplit' : childrenOf nodes edges current = (cs1 ++ [c]) ++ cs2' := by
      rw [hsplit, List.append_assoc]
      rfl
    -- unfold one step of processChildren
    have hstep : processChildren nodes (c :: cs2') deg q =
        processChildren nodes cs2' (fun x => if x = c then deg c - 1 else deg x)
          (if deg c - 1 = 0 then q ++ [c] else q) := by
      simp [processChildren, hcNodes]
    have hdeg' : ∀ n ∈ nodes, (fun x => if x = c then deg c - 1 else deg x) n =
        (remDeg edges s n : Int) - ((cs1 ++ [c]).count n : Int) := by
      intro n hn
      by_cases h : n = c
      · subst h
        rw [hcnt_self]
        simp [hdegc]
        ring
      · rw [hcnt_other n h]
        simp [h, hdeg n hn]
    have henq_iff : (deg c - 1 = 0) ↔ remDeg edges s c = cs1.count c + 1 := by
      rw [hdegc]
      omega
    have hq' : ∀ n ∈ nodes, (n ∈ (if deg c - 1 = 0 then q ++ [c] else q) ↔
        (remDeg edges s n = (cs1 ++ [c]).count n ∧ n ∉ s ++ [current])) := by
      intro n hn
      by_cases henq : deg c - 1 = 0
      · rw [if_pos henq]
        by_cases hnc : n = c
        · subst hnc
          rw [hcnt_self]
          have h0 := henq_iff.mp henq
          constructor
          · intro _
            exact ⟨h0, hcs'⟩
          · intro _
            exact List.mem_append_right _ (List.mem_singleton.mpr rfl)
        · rw [hcnt_other n hnc]
          rw [List.mem_append, List.mem_singleton]
          constructor
          · rintro (h | h)
            · exact (hq n hn).mp h
            · exact absurd h hnc
          · intro h
            exact Or.inl ((hq n hn).mpr h)
      · rw [if_neg henq]
        by_cases hnc : n = c
        · subst hnc
          rw [hcnt_self]
          constructor
          · intro h
            exact absurd h hcq
          · intro h
            exact absurd (henq_iff.mpr h.1) henq
        · rw [hcnt_other n hnc]
          exact hq n hn
    have hnd' : ((s ++ [current]) ++ (if deg c - 1 = 0 then q ++ [c] else q)).Nodup := by
      by_cases henq : deg c - 1 = 0
      · rw [if_pos henq, ← List.append_assoc]
        apply nodup_append_singleton
        · exact hnd
        · intro h
          rcases List.mem_append.mp h with h | h
          · exact hcs' h
          · exact hcq h
      · rw [if_neg henq]
        exact hnd
    have hm' : ∀ x ∈ (s ++ [current]) ++ (if deg c - 1 = 0 then q ++ [c] else q),
        x ∈ nodes := by
      intro x hx
      by_cases henq : deg c - 1 = 0
      · rw [if_pos henq, ← List.append_assoc] at hx
        rcases List.mem_append.mp hx with h | h
        · exact hm x h
        · rcases List.mem_singleton.mp h with rfl
          exact hcNodes
      · rw [if_neg henq] at hx
        exact hm x hx
    obtain ⟨dg, qq, hrun, p1, p2, p3, p4⟩ :=
      ih (cs1 ++ [c]) _ _ hsplit' hdeg' hq' hnd' hm'
    exact ⟨dg, qq, by rw [hstep]; exact hrun, p1, p2, p3, p4⟩

theorem kahnLoop_spec {nodes : List NodeId} {edges : List GEdge}
    (hE : EdgesWF nodes edges) :
    ∀ (fuel : Nat) (q : List NodeId) (deg : NodeId → Int) (s : List NodeId),
      KInv nodes edges q deg s →
      nodes.length + 1 ≤ fuel + s.length →
      ∃ out deg', kahnLoop nodes edges fuel q deg s = some out ∧
        KInv nodes edges [] deg' out ∧ s <+: out := by
  intro fuel
  induction fuel with
  | zero =>
    intro q deg s hinv hlen
    exfalso
    have hnds : s.Nodup := hinv.nodup.of_append_left
    have h1 : s.length ≤ nodes.length :=
      nodup_sub_length_le hnds (fun x hx => hinv.mem x (List.mem_append_left _ hx))
    omega
  | succ fuel ih =>
    intro q deg s hinv hlen
    match q with
    | [] =>
      exact ⟨s, deg, rfl, hinv, List.prefix_refl s⟩
    | current :: rest =>
      have hcur_q : current ∈ current :: rest := List.mem_cons_self ..
      have hcn : current ∈ nodes := hinv.mem _ (List.mem_append_right _ hcur_q)
      have hnd := hinv.nodup
      have hdisj : ∀ a ∈ s, a ∉ current :: rest := by
        intro a ha hb
        exact (List.disjoint_of_nodup_append hnd) ha hb
      have hcs : current ∉ s := fun h => hdisj current h hcur_q
      have hrd0 : remDeg edges s current = 0 :=
        ((hinv.queue_iff current hcn).mp hcur_q).1
      have hs' : ∀ n ∈ s ++ [current], remDeg edges s n = 0 := by
        intro n hn
        rcases List.mem_append.mp hn with h | h
        · exact hinv.s_deg n h
        · rcases List.mem_singleton.mp h with rfl
          exact hrd0
      have hndq : (current :: rest).Nodup := hnd.of_append_right
      have hcrest : current ∉ rest := (List.nodup_cons.mp hndq).1
      have hassoc : s ++ current :: rest = (s ++ [current]) ++ rest := by
        rw [List.append_assoc]
        rfl
      -- preconditions of processChildren_spec with an empty processed prefix
      have hdeg0 : ∀ n ∈ nodes, deg n =
          (remDeg edges s n : Int) - (([] : List NodeId).count n : Int) := by
        intro n hn
        simpa using hinv.deg_eq n hn
      have hq0 : ∀ n ∈ nodes, (n ∈ rest ↔
          (remDeg edges s n = ([] : List NodeId).count n ∧ n ∉ s ++ [current])) := by
        intro n hn
        simp only [List.count_nil]
        constructor
        · intro h
          have hmemq : n ∈ current :: rest := List.mem_cons_of_mem _ h
          obtain ⟨h0, hns⟩ := (hinv.queue_iff n hn).mp hmemq
          refine ⟨h0, ?_⟩
          intro hmem
          rcases List.mem_append.mp hmem with h' | h'
          · exact hns h'
          · rcases List.mem_singleton.mp h' with rfl
            exact hcrest h
        · rintro ⟨h0, hns⟩
          have hns' : n ∉ s := fun h => hns (List.mem_append_left _ h)
          have hnc : n ≠ current := by
            intro h
            exact hns (h ▸ List.mem_append_right _ (List.mem_singleton.mpr rfl))
          have : n ∈ current :: rest := (hinv.queue_iff n hn).mpr ⟨h0, hns'⟩
          rcases List.mem_cons.mp this with h | h
          · exact absurd h hnc
          · exact h
      have hnd0 : ((s ++ [current]) ++ rest).Nodup := by
        rw [← hassoc]
        exact hnd
      have hm0 : ∀ x ∈ (s ++ [current]) ++ rest, x ∈ nodes := by
        intro x hx
        rw [← hassoc] at hx
        exact hinv.mem x hx
      obtain ⟨deg', q', hpc, pdeg, pq, pnd, pm⟩ :=
        processChildren_spec hE hcn hcs hs'
          (childrenOf nodes edges current) [] deg rest (by simp) hdeg0 hq0 hnd0 hm0
      -- re-establish the loop invariant for the extended prefix
      have hinv' : KInv nodes edges q' deg' (s ++ [current]) := by
        refine ⟨pnd, pm, ?_, ?_, ?_, ?_⟩
        · intro n hn
          have := @remDeg_append_one nodes edges current s hcn hcs n
          rw [pdeg n hn]
          omega
        · intro n hn
          have := @remDeg_append_one nodes edges current s hcn hcs n
          rw [pq n hn]
          constructor
          · rintro ⟨h1, h2⟩
            exact ⟨by omega, h2⟩
          · rintro ⟨h1, h2⟩
            exact ⟨by omega, h2⟩
        · intro n hn
          have hle : remDeg edges (s ++ [current]) n ≤ remDeg edges s n :=
            remDeg_anti edges s [current] n
          have := hs' n hn
          omega
        · intro e he ht
          rcases List.mem_append.mp ht with h | h
          · obtain ⟨h1, h2⟩ := hinv.topo e he h
            refine ⟨List.mem_append_left _ h1, ?_⟩
            rw [idxIn_append_left _ h1, idxIn_append_left _ h]
            exact h2
          · rcases List.mem_singleton.mp h with heq
            have h1 : e.1 ∈ s := remDeg_zero_sources hrd0 he heq
            refine ⟨List.mem_append_left _ h1, ?_⟩
            rw [idxIn_append_left _ h1, heq, idxIn_append_right _ hcs]
            have : idxIn [current] current = 0 := by simp [idxIn]
            rw [this]
            have := idxIn_lt_length h1
            omega
      have hlen' : nodes.length + 1 ≤ fuel + (s ++ [current]).length := by
        simp only [List.length_append, List.length_singleton]
        omega
      obtain ⟨out, dgF, hrun, hfin, hpre⟩ := ih q' deg' (s ++ [current]) hinv' hlen'
      refine ⟨out, dgF, ?_, hfin, ?_⟩
      · simp only [kahnLoop, hpc]
        exact hrun
      · exact (List.prefix_append s [current]).trans hpre

end KahnInvariant

section CycleLemmas

/-- If every member of a non-empty finite set of nodes has a predecessor
inside the set, the relation has a cycle (pigeonhole on iterated
predecessors). -/
theorem exists_transGen_self {rel : NodeId → NodeId → Prop} (R : List NodeId)
    (hne : R ≠ []) (h : ∀ n ∈ R, ∃ m ∈ R, rel m n) :
    ∃ v, Relation.TransGen rel v v := by
  classical
  -- total predecessor-picking function
  have hg : ∀ n, ∃ m, (n ∈ R → (m ∈ R ∧ rel m n)) := by
    intro n
    by_cases hn : n ∈ R
    · obtain ⟨m, hm, hrel⟩ := h n hn
      exact ⟨m, fun _ => ⟨hm, hrel⟩⟩
    · exact ⟨n, fun hc => absurd hc hn⟩
  choose g hgspec using hg
  obtain ⟨x0, hx0⟩ := List.exists_mem_of_ne_nil R hne
  have hiter : ∀ k, g^[k] x0 ∈ R := by
    intro k
    induction k with
    | zero => simpa using hx0
    | succ k ihk =>
      rw [Function.iterate_succ_apply']
      exact (hgspec _ ihk).1
  have hstep : ∀ k, rel (g^[k + 1] x0) (g^[k] x0) := by
    intro k
    rw [Function.iterate_succ_apply']
    exact (hgspec _ (hiter k)).2
  -- pigeonhole over R.toFinset
  have hmaps : ∀ i ∈ Finset.range (R.toFinset.card + 1), g^[i] x0 ∈ R.toFinset := by
    intro i _
    exact List.mem_toFinset.mpr (hiter i)
  have hcard : R.toFinset.card < (Finset.range (R.toFinset.card + 1)).card := by
    simp
  obtain ⟨i, _, j, _, hij, heq⟩ :=
    Finset.exists_ne_map_eq_of_card_lt_of_maps_to hcard hmaps
  -- chains of predecessor steps give TransGen
  have htg : ∀ (d : Nat) (k : Nat), 1 ≤ d →
      Relation.TransGen rel (g^[k + d] x0) (g^[k] x0) := by
    intro d
    induction d with
    | zero => omega
    | succ d ihd =>
      intro k _
      by_cases hd : d = 0
      · subst hd
        exact Relation.TransGen.single (hstep k)
      · have h1 : Relation.TransGen rel (g^[k + d] x0) (g^[k] x0) :=
          ihd k (by omega)
        have h2 : rel (g^[k + d + 1] x0) (g^[k + d] x0) := hstep (k + d)
        exact Relation.TransGen.head h2 h1
  rcases Nat.lt_or_ge i j with hlt | hge
  · have := htg (j - i) i (by omega)
    rw [show i + (j - i) = j by omega, heq] at this
    exact ⟨_, this⟩
  · have hlt : j < i := by omega
    have := htg (i - j) j (by omega)
    rw [show j + (i - j) = i by omega, ← heq] at this
    exact ⟨_, this⟩

/-- A topologically ordered list admits no cycle through its members: along
`TransGen`, positions strictly increase. -/
theorem transGen_idx {edges : List GEdge} {out : List NodeId}
    (htopo : ∀ e ∈ edges, e.2 ∈ out → e.1 ∈ out ∧ idxIn out e.1 < idxIn out e.2) :
    ∀ u w, Relation.TransGen (ERel edges) u w → w ∈ out →
      u ∈ out ∧ idxIn out u < idxIn out w := by
  intro u w h
  induction h with
  | single h1 =>
    intro hw
    exact htopo _ h1 hw
  | tail _ h2 ihk =>
    intro hw
    obtain ⟨hb, hlt⟩ := htopo _ h2 hw
    obtain ⟨hu, hlt'⟩ := ihk hb
    exact ⟨hu, lt_trans hlt' hlt⟩

/-- A strictly monotone edge list is acyclic (used to discharge concrete
acyclicity hypotheses). -/
theorem acyclic_of_increasing (edges : List GEdge)
    (h : ∀ e ∈ edges, e.1 < e.2) : Acyclic edges := by
  intro v hv
  have hmono : ∀ a b, ERel edges a b → a < b := fun a b hab => h (a, b) hab
  have hlt : ∀ a b, Relation.TransGen (ERel edges) a b → a < b := by
    intro a b hab
    induction hab with
    | single h1 => exact hmono _ _ h1
    | tail _ h2 ihk => exact lt_trans ihk (hmono _ _ h2)
  exact lt_irrefl v (hlt v v hv)

end CycleLemmas

section TopoSortTheorems

theorem remDeg_pos_source {edges : List GEdge} {s : List NodeId} {n : NodeId}
    (h : remDeg edges s n ≠ 0) : ∃ e ∈ edges, e.2 = n ∧ e.1 ∉ s := by
  unfold remDeg at h
  have hne : edges.filter (fun e => e.2 == n && !(s.contains e.1)) ≠ [] := by
    intro hc
    rw [hc] at h
    exact h rfl
  obtain ⟨e, he⟩ := List.exists_mem_of_ne_nil _ hne
  obtain ⟨hemem, hprop⟩ := List.mem_filter.mp he
  simp only [contains_eq, Bool.and_eq_true, beq_iff_eq, Bool.not_eq_true',
    decide_eq_false_iff_not] at hprop
  exact ⟨e, hemem, hprop.1, hprop.2⟩

theorem kahn_initial_inv {nodes : List NodeId} {edges : List GEdge}
    (hN : nodes.Nodup) :
    KInv nodes edges (startNodes nodes edges)
      (fun n => (indeg edges n : Int)) [] := by
  refine ⟨?_, ?_, ?_, ?_, ?_, ?_⟩
  · simpa using hN.filter _
  · intro x hx
    simp only [List.nil_append] at hx
    exact List.mem_of_mem_filter hx
  · intro n _
    rw [remDeg_nil]
  · intro n hn
    rw [remDeg_nil]
    unfold startNodes
    simp [List.mem_filter, hn]
  · intro n hn
    cases hn
  · intro e _ ht
    cases ht

/-- Shared: running the Kahn loop from the initial state terminates with a
final invariant-satisfying order. -/
theorem kahn_run {nodes : List NodeId} {edges : List GEdge}
    (hN : nodes.Nodup) (hE : EdgesWF nodes edges) :
    ∃ out deg', kahnLoop nodes edges (nodes.length + 1) (startNodes nodes edges)
        (fun n => (indeg edges n : Int)) [] = some out ∧
      KInv nodes edges [] deg' out := by
  obtain ⟨out, deg', hrun, hfin, _⟩ :=
    kahnLoop_spec hE (nodes.length + 1) (startNodes nodes edges)
      (fun n => (indeg edges n : Int)) [] (kahn_initial_inv hN) (by simp)
  exact ⟨out, deg', hrun, hfin⟩

/-- Final-state facts extracted from the invariant. -/
theorem kahn_final_facts {nodes : List NodeId} {edges : List GEdge}
    {deg' : NodeId → Int} {out : List NodeId}
    (hfin : KInv nodes edges [] deg' out) :
    out.Nodup ∧ (∀ x ∈ out, x ∈ nodes) ∧
    (∀ n ∈ nodes, n ∉ out → remDeg edges out n ≠ 0) ∧
    (∀ e ∈ edges, e.2 ∈ out → e.1 ∈ out ∧ idxIn out e.1 < idxIn out e.2) := by
  refine ⟨by simpa using hfin.nodup, ?_, ?_, hfin.topo⟩
  · intro x hx
    exact hfin.mem x (by simpa using hx)
  · intro n hn hno
    intro h0
    have := (hfin.queue_iff n hn).mpr ⟨h0, hno⟩
    cases this

/-- Under well-formed edges and acyclicity, the final Kahn order contains
every node. -/
theorem kahn_complete {nodes : List NodeId} {edges : List GEdge}
    {deg' : NodeId → Int} {out : List NodeId}
    (hN : nodes.Nodup) (hE : EdgesWF nodes edges) (hA : Acyclic edges)
    (hfin : KInv nodes edges [] deg' out) :
    ∀ n ∈ nodes, n ∈ out := by
  obtain ⟨hnd, hsub, hmiss, _⟩ := kahn_final_facts hfin
  by_contra hc
  push_neg at hc
  obtain ⟨n0, hn0, hn0o⟩ := hc
  set R := nodes.filter (fun n => decide (n ∉ out)) with hR
  have hRmem : ∀ n, n ∈ R ↔ (n ∈ nodes ∧ n ∉ out) := by
    intro n
    rw [hR, List.mem_filter]
    simp
  have hRne : R ≠ [] := by
    intro hnil
    have := (hRmem n0).mpr ⟨hn0, hn0o⟩
    rw [hnil] at this
    cases this
  have hpred : ∀ n ∈ R, ∃ m ∈ R, ERel edges m n := by
    intro n hn
    obtain ⟨hnn, hnout⟩ := (hRmem n).mp hn
    obtain ⟨⟨a, b⟩, hemem, ht, hs⟩ := remDeg_pos_source (hmiss n hnn hnout)
    dsimp only at ht hs
    subst ht
    exact ⟨a, (hRmem a).mpr ⟨(hE _ hemem).1, hs⟩, hemem⟩
  obtain ⟨v, hv⟩ := exists_transGen_self R hRne hpred
  exact hA v hv

theorem startNodes_ne_nil_nodes_ne_nil {nodes : List NodeId} {edges : List GEdge}
    (hS : startNodes nodes edges ≠ []) : nodes ≠ [] := by
  intro h
  apply hS
  rw [h]
  rfl

/-- Kahn's algorithm on an acyclic well-formed graph with a start node:
success with a permutation of all nodes respecting every edge. -/
theorem topological_sort_acyclic {nodes : List NodeId} {edges : List GEdge}
    (hN : nodes.Nodup) (hE : EdgesWF nodes edges) (hA : Acyclic edges)
    (hS : startNodes nodes edges ≠ []) :
    ∃ sorted, topological_sort nodes edges = some (.ok sorted) ∧
      sorted.Perm nodes ∧
      ∀ e ∈ edges, idxIn sorted e.1 < idxIn sorted e.2 := by
  have hnn : nodes ≠ [] := startNodes_ne_nil_nodes_ne_nil hS
  obtain ⟨out, deg', hrun, hfin⟩ := kahn_run hN hE
  obtain ⟨hnd, hsub, _, htopo⟩ := kahn_final_facts hfin
  have hcompl := kahn_complete hN hE hA hfin
  have hperm : out.Perm nodes := by
    apply List.Subperm.antisymm
    · exact hnd.subperm (fun x hx => hsub x hx)
    · exact hN.subperm (fun x hx => hcompl x hx)
  refine ⟨out, ?_, hperm, ?_⟩
  · unfold topological_sort
    rw [if_neg (by simpa using hnn), if_neg (by simpa using hS), hrun]
    dsimp only
    rw [if_pos hperm.length_eq]
  · intro e he
    have h2 : e.2 ∈ out := hcompl e.2 (hE e he).2
    exact (htopo e he h2).2

/-- Kahn's algorithm on a cyclic graph that does have a start node: the
`CycleError` branch fires (the produced order misses the cycle's nodes). -/
theorem topological_sort_cycle {nodes : List NodeId} {edges : List GEdge}
    (hN : nodes.Nodup) (hE : EdgesWF nodes edges)
    (hC : ∃ v, Relation.TransGen (ERel edges) v v)
    (hS : startNodes nodes edges ≠ []) :
    topological_sort nodes edges = some (.error .cycleDetected) := by
  have hnn : nodes ≠ [] := startNodes_ne_nil_nodes_ne_nil hS
  obtain ⟨out, deg', hrun, hfin⟩ := kahn_run hN hE
  obtain ⟨hnd, hsub, _, htopo⟩ := kahn_final_facts hfin
  obtain ⟨v, hv⟩ := hC
  have hvnodes : v ∈ nodes := by
    cases hv with
    | single h => exact (hE _ h).1
    | tail _ h2 => exact (hE _ h2).2
  have hvout : v ∉ out := by
    intro hvo
    obtain ⟨_, hlt⟩ := transGen_idx htopo v v hv hvo
    omega
  have hlt : out.length < nodes.length :=
    nodup_sub_missing_length_lt hnd hsub v hvnodes hvout
  unfold topological_sort
  rw [if_neg (by simpa using hnn), if_neg (by simpa using hS), hrun]
  dsimp only
  rw [if_neg (by omega)]

end TopoSortTheorems

section ReachProof

/-- Invariant of the BFS loop of `find_reachable_nodes`. -/
structure RInv (nodes : List NodeId) (edges : List GEdge) (S : List NodeId)
    (q reach : List NodeId) : Prop where
  nodup : reach.Nodup
  r_sub : ∀ x ∈ reach, x ∈ nodes
  q_sub : ∀ x ∈ q, x ∈ nodes
  closed : ∀ x ∈ reach, ∀ c ∈ childrenOf nodes edges x, c ∈ reach ∨ c ∈ q
  start_in : ∀ x ∈ S, x ∈ reach ∨ x ∈ q

/-- Decreasing potential of the BFS loop. -/
def rPot (nodes : List NodeId) (edges : List GEdge) (q reach : List NodeId) : Nat :=
  q.length + ((nodes.filter (fun n => !(reach.contains n))).map
    (fun n => 1 + (childrenOf nodes edges n).length)).sum

theorem reachLoop_spec {nodes : List NodeId} {edges : List GEdge} {S : List NodeId}
    (hN : nodes.Nodup) (hE : EdgesWF nodes edges) :
    ∀ (fuel : Nat) (q reach : List NodeId),
      RInv nodes edges S q reach →
      rPot nodes edges q reach < fuel →
      ∃ out, reachLoop nodes edges fuel q reach = some out ∧
        RInv nodes edges S [] out ∧ (∀ x ∈ reach, x ∈ out) := by
  intro fuel
  induction fuel with
  | zero =>
    intro q reach _ hpot
    omega
  | succ fuel ih =>
    intro q reach hinv hpot
    match q with
    | [] =>
      exact ⟨reach, rfl, hinv, fun x hx => hx⟩
    | c :: rest =>
      have hcn : c ∈ nodes := hinv.q_sub c (List.mem_cons_self ..)
      by_cases hc : c ∈ reach
      · -- skip: already visited
        have hinv' : RInv nodes edges S rest reach := by
          refine ⟨hinv.nodup, hinv.r_sub, ?_, ?_, ?_⟩
          · intro x hx
            exact hinv.q_sub x (List.mem_cons_of_mem _ hx)
          · intro x hx ch hch
            rcases hinv.closed x hx ch hch with h | h
            · exact Or.inl h
            · rcases List.mem_cons.mp h with rfl | h'
              · exact Or.inl hc
              · exact Or.inr h'
          · intro x hx
            rcases hinv.start_in x hx with h | h
            · exact Or.inl h
            · rcases List.mem_cons.mp h with rfl | h'
              · exact Or.inl hc
              · exact Or.inr h'
        have hpot' : rPot nodes edges rest reach < fuel := by
          unfold rPot at hpot ⊢
          simp only [List.length_cons] at hpot
          omega
        obtain ⟨out, hrun, hfin, hgrow⟩ := ih rest reach hinv' hpot'
        refine ⟨out, ?_, hfin, hgrow⟩
        simp only [reachLoop, if_pos hc]
        exact hrun
      · -- visit c
        set newKids := (childrenOf nodes edges c).filter
          (fun x => !((reach ++ [c]).contains x)) with hK
        have hinv' : RInv nodes edges S (rest ++ newKids) (reach ++ [c]) := by
          refine ⟨nodup_append_singleton hinv.nodup hc, ?_, ?_, ?_, ?_⟩
          · intro x hx
            rcases List.mem_append.mp hx with h | h
            · exact hinv.r_sub x h
            · rcases List.mem_singleton.mp h with rfl
              exact hcn
          · intro x hx
            rcases List.mem_append.mp hx with h | h
            · exact hinv.q_sub x (List.mem_cons_of_mem _ h)
            · exact children_sub_nodes hE (List.mem_of_mem_filter h)
          · intro x hx ch hch
            rcases List.mem_append.mp hx with h | h
            · rcases hinv.closed x h ch hch with h' | h'
              · exact Or.inl (List.mem_append_left _ h')
              · rcases List.mem_cons.mp h' with rfl | h''
                · exact Or.inl (List.mem_append_right _ (List.mem_singleton.mpr rfl))
                · exact Or.inr (List.mem_append_left _ h'')
            · have hxc : x = c := List.mem_singleton.mp h
              by_cases hin : ch ∈ reach ++ [c]
              · exact Or.inl hin
              · refine Or.inr (List.mem_append_right _ ?_)
                rw [hK]
                apply List.mem_filter.mpr
                refine ⟨hxc ▸ hch, ?_⟩
                have h1 : ch ∉ reach := fun hh => hin (List.mem_append_left _ hh)
                have h2 : ¬ ch = c := fun hh =>
                  hin (hh ▸ List.mem_append_right _ (List.mem_singleton.mpr rfl))
                simp [contains_eq, h1, h2]
          · intro x hx
            rcases hinv.start_in x hx with h | h
            · exact Or.inl (List.mem_append_left _ h)
            · rcases List.mem_cons.mp h with rfl | h'
              · exact Or.inl (List.mem_append_right _ (List.mem_singleton.mpr rfl))
              · exact Or.inr (List.mem_append_left _ h')
        have hpot' : rPot nodes edges (rest ++ newKids) (reach ++ [c]) < fuel := by
          have hflt : nodes.filter (fun n => !((reach ++ [c]).contains n)) =
              (nodes.filter (fun n => !(reach.contains n))).filter
                (fun n => n != c) := by
            rw [List.filter_filter]
            apply List.filter_congr
            intro n _
            by_cases h1 : n ∈ reach <;> by_cases h2 : n = c <;>
              simp [contains_eq, h1, h2]
          have hcL : c ∈ nodes.filter (fun n => !(reach.contains n)) := by
            apply List.mem_filter.mpr
            refine ⟨hcn, ?_⟩
            simp [contains_eq, hc]
          have hsum := sum_filter_ne
            (fun n => 1 + (childrenOf nodes edges n).length) (hN.filter _) hcL
          dsimp only at hsum
          have hkid_le : newKids.length ≤ (childrenOf nodes edges c).length := by
            rw [hK]
            exact List.length_filter_le _ _
          unfold rPot at hpot ⊢
          rw [hflt]
          simp only [List.length_append, List.length_cons] at hpot ⊢
          omega
        obtain ⟨out, hrun, hfin, hgrow⟩ := ih _ _ hinv' hpot'
        refine ⟨out, ?_, hfin, ?_⟩
        · simp only [reachLoop, if_neg hc]
          rw [← hK]
          exact hrun
        · intro x hx
          exact hgrow x (List.mem_append_left _ hx)

/-- `find_reachable_nodes` terminates; the result is a duplicate-free subset
of the nodes containing the start set and closed under children. -/
theorem find_reachable_spec {nodes : List NodeId} {edges : List GEdge}
    {S : List NodeId} (hN : nodes.Nodup) (hE : EdgesWF nodes edges)
    (hS : ∀ x ∈ S, x ∈ nodes) :
    ∃ out, find_reachable_nodes nodes edges S = some out ∧
      out.Nodup ∧ (∀ x ∈ out, x ∈ nodes) ∧ (∀ x ∈ S, x ∈ out) ∧
      (∀ x ∈ out, ∀ c ∈ childrenOf nodes edges x, c ∈ out) := by
  have hinv0 : RInv nodes edges S S [] := by
    refine ⟨List.nodup_nil, ?_, hS, ?_, ?_⟩
    · intro x hx
      cases hx
    · intro x hx
      cases hx
    · intro x hx
      exact Or.inr hx
  have hpot0 : rPot nodes edges S [] < reachFuel nodes edges S := by
    unfold rPot reachFuel
    have : nodes.filter (fun n => !(([] : List NodeId).contains n)) = nodes := by
      apply List.filter_eq_self.mpr
      intro x _
      rfl
    rw [this, sum_map_one_add]
    omega
  obtain ⟨out, hrun, hfin, _⟩ := reachLoop_spec hN hE (reachFuel nodes edges S) S [] hinv0 hpot0
  refine ⟨out, hrun, hfin.nodup, hfin.r_sub, ?_, ?_⟩
  · intro x hx
    rcases hfin.start_in x hx with h | h
    · exact h
    · cases h
  · intro x hx c hc
    rcases hfin.closed x hx c hc with h | h
    · exact h
    · cases h

/-- Every node reachable (in the relational sense) from the start set is in
the computed BFS set. -/
theorem reach_complete {nodes : List NodeId} {edges : List GEdge}
    {S out : List NodeId}
    (hsub : ∀ x ∈ out, x ∈ nodes) (hstart : ∀ x ∈ S, x ∈ out)
    (hclosed : ∀ x ∈ out, ∀ c ∈ childrenOf nodes edges x, c ∈ out) :
    ∀ (x s0 : NodeId), s0 ∈ S → Relation.ReflTransGen (ERel edges) s0 x →
      x ∈ out := by
  intro x s0 hs0 hrt
  induction hrt with
  | refl => exact hstart s0 hs0
  | tail _ h2 ihk =>
    rename_i b cc _
    have hb : b ∈ out := ihk
    have hbn : b ∈ nodes := hsub b hb
    have : cc ∈ childrenOf nodes edges b := (mem_children_iff hbn cc).mpr h2
    exact hclosed b hb cc this

end ReachProof

section ValidateTheorems

theorem startNodes_sub {nodes : List NodeId} {edges : List GEdge} :
    ∀ x ∈ startNodes nodes edges, x ∈ nodes := by
  intro x hx
  exact List.mem_of_mem_filter hx

/-- `validate_graph` on a well-formed acyclic graph with ≥ 1 start node and
full reachability: success, and the order is a topologically-sorted
permutation of all nodes. -/
theorem validate_graph_acyclic {nodes : List NodeId} {edges : List GEdge}
    (hN : nodes.Nodup) (hE : EdgesWF nodes edges) (hA : Acyclic edges)
    (hS : startNodes nodes edges ≠ [])
    (hR : ∀ n ∈ nodes, ∃ s ∈ startNodes nodes edges,
      Relation.ReflTransGen (ERel edges) s n) :
    ∃ r : ValidationResult, validate_graph nodes edges false = some (.ok r) ∧
      r.sorted_nodes.Perm nodes ∧
      ∀ e ∈ edges, idxIn r.sorted_nodes e.1 < idxIn r.sorted_nodes e.2 := by
  have hnn : nodes ≠ [] := startNodes_ne_nil_nodes_ne_nil hS
  obtain ⟨sorted, htopo, hperm, hidx⟩ := topological_sort_acyclic hN hE hA hS
  obtain ⟨reach, hreach, hrnd, hrsub, hrstart, hrclosed⟩ :=
    find_reachable_spec (S := startNodes nodes edges) hN hE startNodes_sub
  have hrall : ∀ n ∈ nodes, n ∈ reach := by
    intro n hn
    obtain ⟨s0, hs0, hrt⟩ := hR n hn
    exact reach_complete hrsub hrstart hrclosed n s0 hs0 hrt
  have hunr : nodes.filter (fun n => !(reach.contains n)) = [] := by
    apply List.filter_eq_nil_iff.mpr
    intro n hn
    simp [contains_eq, hrall n hn]
  have hrlen : reach.length = nodes.length :=
    (List.Subperm.antisymm (hrnd.subperm hrsub) (hN.subperm hrall)).length_eq
  refine ⟨⟨startNodes nodes edges, sorted, reach,
    nodes.filter (fun n => !(reach.contains n))⟩, ?_, hperm, hidx⟩
  unfold validate_graph
  rw [if_neg (by simpa using hnn), if_neg (by simpa using hS), htopo]
  dsimp only
  rw [hreach]
  dsimp only
  rw [hunr]
  simp [hrlen]

/-- Errors produced by `topological_sort` are only the start-node and cycle
errors. -/
theorem topological_sort_error_cases {nodes : List NodeId} {edges : List GEdge}
    {e : GraphError} (h : topological_sort nodes edges = some (.error e)) :
    e = .noStartNode ∨ e = .cycleDetected := by
  simp only [topological_sort] at h
  split at h
  · cases h
  · split at h
    · cases h
      exact Or.inl rfl
    · split at h
      · cases h
      · split at h
        · cases h
        · cases h
          exact Or.inr rfl

/-- Any well-formed non-empty graph containing a cycle fails validation; the
error is `CycleError` when a start node exists and `NoStartNodeError`
otherwise. -/
theorem validate_graph_cycle {nodes : List NodeId} {edges : List GEdge}
    (hN : nodes.Nodup) (hE : EdgesWF nodes edges)
    (hC : ∃ v, Relation.TransGen (ERel edges) v v) (ad : Bool) :
    ∃ e, validate_graph nodes edges ad = some (.error e) ∧
      (e = .cycleDetected ∨ e = .noStartNode) ∧
      (startNodes nodes edges ≠ [] → e = .cycleDetected) := by
  have hnn : nodes ≠ [] := by
    obtain ⟨v, hv⟩ := hC
    have : v ∈ nodes := by
      cases hv with
      | single h => exact (hE _ h).1
      | tail _ h2 => exact (hE _ h2).2
    exact List.ne_nil_of_mem this
  by_cases hS : startNodes nodes edges = []
  · refine ⟨.noStartNode, ?_, Or.inr rfl, fun h => absurd hS h⟩
    unfold validate_graph
    rw [if_neg (by simpa using hnn), if_pos (by simpa using hS)]
  · have htopo := topological_sort_cycle hN hE hC hS
    refine ⟨.cycleDetected, ?_, Or.inl rfl, fun _ => rfl⟩
    unfold validate_graph
    rw [if_neg (by simpa using hnn), if_neg (by simpa using hS), htopo]

/-- On well-formed inputs `validate_graph` can never raise
`DisconnectedGraphError`: whenever the reachable set misses a node the
`UnreachableNodeError` branch fires first, and otherwise the reachable set
has full size. -/
theorem validate_graph_no_disconnected {nodes : List NodeId} {edges : List GEdge}
    (hN : nodes.Nodup) (hE : EdgesWF nodes edges) (ad : Bool) :
    validate_graph nodes edges ad ≠ some (.error .disconnectedGraph) := by
  by_cases hnn : nodes = []
  · subst hnn
    intro h
    cases h
  by_cases hS : startNodes nodes edges = []
  · unfold validate_graph
    rw [if_neg (by simpa using hnn), if_pos (by simpa using hS)]
    intro h
    cases h
  obtain ⟨reach, hreach, hrnd, hrsub, hrstart, hrclosed⟩ :=
    find_reachable_spec (S := startNodes nodes edges) hN hE startNodes_sub
  unfold validate_graph
  rw [if_neg (by simpa using hnn), if_neg (by simpa using hS)]
  rcases htopo : topological_sort nodes edges with _ | he | sorted
  · intro h
    cases h
  · dsimp only
    intro h
    cases h
    rcases topological_sort_error_cases htopo with h | h <;> cases h
  · dsimp only
    rw [hreach]
    dsimp only
    rcases ad with _ | _
    · -- allow_disconnected = false
      by_cases hunr : nodes.filter (fun n => !(reach.contains n)) = []
      · rw [hunr]
        have hrall : ∀ n ∈ nodes, n ∈ reach := by
          intro n hn
          by_contra hc
          have : n ∈ nodes.filter (fun n => !(reach.contains n)) := by
            apply List.mem_filter.mpr
            simp [contains_eq, hn, hc]
          rw [hunr] at this
          cases this
        have hrlen : reach.length = nodes.length :=
          (List.Subperm.antisymm (hrnd.subperm hrsub) (hN.subperm hrall)).length_eq
        simp [hrlen]
      · have hcond : (!(nodes.filter (fun n => !(reach.contains n))).isEmpty
            && !false) = true := by
          simp only [Bool.not_false, Bool.and_true, Bool.not_eq_true',
            List.isEmpty_eq_false_iff_exists_mem]
          obtain ⟨x, hx⟩ := List.exists_mem_of_ne_nil _ hunr
          exact ⟨x, hx⟩
        rw [if_pos hcond]
        intro h
        cases h
    · -- allow_disconnected = true: both guarded branches are off
      simp

end ValidateTheorems

section TieBreakTheorems

theorem processChildren_queue_prefix {nodes : List NodeId} :
    ∀ (cs : List NodeId) (deg : NodeId → Int) (q : List NodeId)
      (deg' : NodeId → Int) (q' : List NodeId),
      processChildren nodes cs deg q = some (deg', q') → q <+: q' := by
  intro cs
  induction cs with
  | nil =>
    intro deg q deg' q' h
    cases h
    exact List.prefix_refl _
  | cons c cs' ih =>
    intro deg q deg' q' h
    by_cases hc : c ∈ nodes
    · simp only [processChildren, if_pos hc] at h
      by_cases henq : deg c - 1 = 0
      · rw [if_pos henq] at h
        exact (List.prefix_append q [c]).trans (ih _ _ _ _ h)
      · rw [if_neg henq] at h
        exact ih _ _ _ _ h
    · simp only [processChildren, if_neg hc] at h
      exact Option.noConfusion h

theorem kahnLoop_prefix {nodes : List NodeId} {edges : List GEdge} :
    ∀ (fuel : Nat) (q : List NodeId) (deg : NodeId → Int) (s out : List NodeId),
      kahnLoop nodes edges fuel q deg s = some out → (s ++ q) <+: out := by
  intro fuel
  induction fuel with
  | zero =>
    intro q deg s out h
    cases h
  | succ fuel ih =>
    intro q deg s out h
    match q with
    | [] =>
      cases h
      simp
    | current :: rest =>
      rcases hpc : processChildren nodes (childrenOf nodes edges current) deg rest
        with _ | ⟨deg', q'⟩
      · rw [kahnLoop, hpc] at h
        cases h
      · rw [kahnLoop, hpc] at h
        have hq' : rest <+: q' := processChildren_queue_prefix _ _ _ _ _ hpc
        have hih := ih q' deg' (s ++ [current]) out h
        have h1 : s ++ current :: rest <+: (s ++ [current]) ++ q' := by
          obtain ⟨t, ht⟩ := hq'
          refine ⟨t, ?_⟩
          rw [← ht]
          simp
        exact h1.trans hih

theorem topological_sort_start_prefix {nodes : List NodeId} {edges : List GEdge}
    {sorted : List NodeId}
    (h : topological_sort nodes edges = some (.ok sorted)) :
    startNodes nodes edges <+: sorted := by
  simp only [topological_sort] at h
  split at h
  · cases h
    rename_i hemp
    have : nodes = [] := by simpa [List.isEmpty_iff] using hemp
    subst this
    simp [startNodes]
  · split at h
    · cases h
    · split at h
      · cases h
      · split at h
        · cases h
          rename_i hrun _
          have := kahnLoop_prefix _ _ _ _ _ hrun
          simpa using this
        · cases h

theorem validate_graph_start_prefix {nodes : List NodeId} {edges : List GEdge}
    {ad : Bool} {r : ValidationResult}
    (h : validate_graph nodes edges ad = some (.ok r)) :
    r.start_nodes = startNodes nodes edges ∧
      r.start_nodes <+: r.sorted_nodes := by
  simp only [validate_graph] at h
  split at h
  · cases h
    rename_i hemp
    have : nodes = [] := by simpa [List.isEmpty_iff] using hemp
    subst this
    exact ⟨by simp [startNodes], List.prefix_refl _⟩
  · split at h
    · cases h
    · split at h
      · cases h
      · cases h
      · rename_i sorted htopo
        split at h
        · cases h
        · split at h
          · cases h
          · split at h
            · cases h
            · cases h
              exact ⟨rfl, topological_sort_start_prefix htopo⟩

end TieBreakTheorems

end GraphSvc

namespace ExecSvc

open GraphSvc

/-!
Embedding of `execution_service.py`, `workflow_run_service.py` and
`node_run_service.py`.  Handlers are abstracted as a function from node id to
`Except String α` (`α` is the node's output payload): `.ok` is a normal
handler return, `.error` is any exception raised while executing the node
(handler failure, dispatch failure, …).  `datetime.utcnow()` is modelled by
a monotonically increasing natural-number clock threaded through the loop.
Statuses are kept as the literal Python strings, because
`update_run_status`/`update_node_run` compare them against string lists.
-/

/-- Final state of a `NodeExecution` row after `create_node_run` and the
matching `update_node_run` call. -/
structure NodeRec where
  node_id : NodeId
  execution_order : Nat
  status : String
  started_at : Nat
  completed_at : Option Nat
deriving DecidableEq, Repr

/-- A `WorkflowRun` row (`has_output` models `output_data is not None`). -/
structure RunRec where
  status : String
  started_at : Nat
  completed_at : Option Nat
  error_message : Option String
  has_output : Bool
deriving DecidableEq, Repr

/-- `WorkflowRunService.create_run`: status `running`, `started_at` set. -/
def create_run (t : Nat) : RunRec := ⟨"running", t, none, none, false⟩

/-- `WorkflowRunService.update_run_status`: sets the status, optionally
output/error, and sets `completed_at` only when the new status is
`"completed"` or `"failed"` — the statuses its guard recognises. -/
def update_run_status (run : RunRec) (status : String) (t : Nat)
    (set_output : Bool) (error_message : Option String) : RunRec :=
  { run with
    status := status
    has_output := run.has_output || set_output
    error_message := match error_message with
      | some m => some m
      | none => run.error_message
    completed_at := if status = "completed" || status = "failed"
      then some t else run.completed_at }

/-- The `for order_index, node_id in enumerate(execution_order)` loop of
`ExecutionService._execute_nodes`: create a running `NodeExecution`, run the
handler, mark the record completed/failed; a failure re-raises and aborts
the loop (no record is ever created for the remaining nodes).  The missing
`node_map` entry check (`raise ValueError`) aborts without a record. -/
def execute_nodes_loop {α : Type} (nodeIds : List NodeId)
    (handler : NodeId → Except String α) :
    List NodeId → Nat → Nat → List NodeRec → List (NodeId × α) →
      (List NodeRec) × (List (NodeId × α)) × Except String Unit
  | [], _, _, recs, outs => (recs, outs, .ok ())
  | n :: rest, idx, clock, recs, outs =>
    if n ∈ nodeIds then
      match handler n with
      | .ok out =>
        execute_nodes_loop nodeIds handler rest (idx + 1) (clock + 2)
          (recs ++ [⟨n, idx, "completed", clock, some (clock + 1)⟩])
          (outs ++ [(n, out)])
      | .error msg =>
        (recs ++ [⟨n, idx, "failed", clock, some (clock + 1)⟩], outs,
          .error ("Node failed: " ++ msg))
    else (recs, outs, .error "node not found in node list")

/-- `context["node_outputs"]` lookup. -/
def lookupOut {α : Type} (outs : List (NodeId × α)) (n : NodeId) : Option α :=
  (outs.find? (fun p => p.1 == n)).map (fun p => p.2)

/-- `ExecutionService._execute_nodes`: run the loop and return the node
records plus either the last node's output or the propagated failure. -/
def execute_nodes {α : Type} (nodeIds : List NodeId)
    (handler : NodeId → Except String α) (order : List NodeId) (clock : Nat) :
    (List NodeRec) × Except String (Option α) :=
  match execute_nodes_loop nodeIds handler order 0 clock [] [] with
  | (recs, outs, .ok _) =>
    (recs, .ok (match order.getLast? with
      | none => none
      | some lastId => lookupOut outs lastId))
  | (recs, _, .error msg) => (recs, .error msg)

/-- Outcome of one `execute_workflow` call: the run row (if one was
created), the node-execution rows, and the HTTP status surfaced to the
caller (200 success, 400 client error, 500 run failure). -/
structure WorkflowOutcome (α : Type) where
  run : Option RunRec
  node_recs : List NodeRec
  http_status : Nat
deriving DecidableEq, Repr

/-- `ExecutionService.execute_workflow` (the workflow itself is assumed to
exist; its nodes and edges are the inputs).  Steps: reject empty workflows
(400, before any run row); validate the graph (`GraphValidationError` ⇒ 400,
before any run row); create the run; execute the nodes; mark the run
`success` with the output, or `failed` with the error message (500). -/
def execute_workflow {α : Type} (nodes : List NodeId) (edges : List GEdge)
    (handler : NodeId → Except String α) (t0 : Nat) :
    Option (WorkflowOutcome α) :=
  if nodes.isEmpty then some ⟨none, [], 400⟩
  else
    match validate_graph nodes edges false with
    | none => none
    | some (.error _) => some ⟨none, [], 400⟩
    | some (.ok v) =>
      let run := create_run t0
      let tEnd := t0 + 1 + 2 * v.sorted_nodes.length + 1
      match execute_nodes nodes handler v.sorted_nodes (t0 + 1) with
      | (recs, .ok _) =>
        some ⟨some (update_run_status run "success" tEnd true none), recs, 200⟩
      | (recs, .error msg) =>
        some ⟨some (update_run_status run "failed" tEnd false (some msg)), recs, 500⟩

theorem execute_nodes_loop_fail {α : Type} (nodeIds : List NodeId)
    (handler : NodeId → Except String α) (msg : String) :
    ∀ (pre post : List NodeId) (bad : NodeId)
      (idx clock : Nat) (recs : List NodeRec) (outs : List (NodeId × α)),
      (∀ n ∈ pre ++ [bad], n ∈ nodeIds) →
      (∀ n ∈ pre, ∃ out, handler n = .ok out) →
      handler bad = .error msg →
      ∃ newRecs outs',
        execute_nodes_loop nodeIds handler (pre ++ bad :: post) idx clock recs outs =
          (recs ++ newRecs, outs', .error ("Node failed: " ++ msg)) ∧
        newRecs.map (fun r => r.node_id) = pre ++ [bad] := by
  intro pre
  induction pre with
  | nil =>
    intro post bad idx clock recs outs hmem hpre hbad
    have hb : bad ∈ nodeIds := hmem bad (by simp)
    refine ⟨[⟨bad, idx, "failed", clock, some (clock + 1)⟩], outs, ?_, by simp⟩
    simp only [List.nil_append, execute_nodes_loop, if_pos hb, hbad]
  | cons p pre' ih =>
    intro post bad idx clock recs outs hmem hpre hbad
    have hp : p ∈ nodeIds := hmem p (by simp)
    obtain ⟨out, hout⟩ := hpre p (List.mem_cons_self ..)
    obtain ⟨newRecs, outs', hrun, hmap⟩ :=
      ih post bad (idx + 1) (clock + 2)
        (recs ++ [⟨p, idx, "completed", clock, some (clock + 1)⟩])
        (outs ++ [(p, out)])
        (fun n hn => hmem n (List.mem_cons_of_mem _ hn))
        (fun n hn => hpre n (List.mem_cons_of_mem _ hn))
        hbad
    refine ⟨⟨p, idx, "completed", clock, some (clock + 1)⟩ :: newRecs, outs', ?_, ?_⟩
    · have hshape : (p :: pre') ++ bad :: post = p :: (pre' ++ bad :: post) := rfl
      rw [hshape]
      simp only [execute_nodes_loop, if_pos hp, hout]
      rw [hrun]
      simp
    · simp [hmap]

end ExecSvc

namespace LLMFmt

/-- A JSON-like Python value as handled by
`LLMService._format_template_value`. -/
inductive PyVal where
  | vstr : String → PyVal
  | vint : Int → PyVal
  | vbool : Bool → PyVal
  | vnone : PyVal
  | vlist : List PyVal → PyVal
  | vdict : List (String × PyVal) → PyVal

mutual

/-- Python `repr` (enough of it for these values: `str` of a container uses
the `repr` of its elements; quote-escaping inside strings is not modelled). -/
def pyRepr : PyVal → String
  | .vstr s => "'" ++ s ++ "'"
  | .vint n => toString n
  | .vbool b => if b then "True" else "False"
  | .vnone => "None"
  | .vlist l => "[" ++ pyReprList l ++ "]"
  | .vdict d => "\x7b" ++ pyReprDict d ++ "\x7d"

def pyReprList : List PyVal → String
  | [] => ""
  | [v] => pyRepr v
  | v :: rest => pyRepr v ++ ", " ++ pyReprList rest

def pyReprDict : List (String × PyVal) → String
  | [] => ""
  | [(k, v)] => "'" ++ k ++ "': " ++ pyRepr v
  | (k, v) :: rest => "'" ++ k ++ "': " ++ pyRepr v ++ ", " ++ pyReprDict rest

end

/-- Python `str`: identity on strings, `repr` otherwise. -/
def pyStr : PyVal → String
  | .vstr s => s
  | v => pyRepr v

def spaces (n : Nat) : String := String.mk (List.replicate n ' ')

mutual

/-- `json.dumps(value, indent=2, ensure_ascii=False)` (string escaping not
modelled; `indent` is the current indentation width). -/
def jsonDumps : Nat → PyVal → String
  | _, .vstr s => "\"" ++ s ++ "\""
  | _, .vint n => toString n
  | _, .vbool b => if b then "true" else "false"
  | _, .vnone => "null"
  | _, .vlist [] => "[]"
  | ind, .vlist (v :: rest) =>
    "[\n" ++ jsonItems (ind + 2) (v :: rest) ++ "\n" ++ spaces ind ++ "]"
  | _, .vdict [] => "\x7b\x7d"
  | ind, .vdict (kv :: rest) =>
    "\x7b\n" ++ jsonPairs (ind + 2) (kv :: rest) ++ "\n" ++ spaces ind ++ "\x7d"

def jsonItems : Nat → List PyVal → String
  | _, [] => ""
  | ind, [v] => spaces ind ++ jsonDumps ind v
  | ind, v :: rest => spaces ind ++ jsonDumps ind v ++ ",\n" ++ jsonItems ind rest

def jsonPairs : Nat → List (String × PyVal) → String
  | _, [] => ""
  | ind, [(k, v)] => spaces ind ++ "\"" ++ k ++ "\": " ++ jsonDumps ind v
  | ind, (k, v) :: rest =>
    spaces ind ++ "\"" ++ k ++ "\": " ++ jsonDumps ind v ++ ",\n" ++ jsonPairs ind rest

end

/-- `isinstance(item, dict) and 'text' in item`. -/
def hasTextKey : PyVal → Bool
  | .vdict d => d.any (fun kv => kv.1 == "text")
  | _ => false

/-- `str(item.get('text', ''))`. -/
def getText : PyVal → String
  | .vdict d =>
    match d.find? (fun kv => kv.1 == "text") with
    | some kv => pyStr kv.2
    | none => ""
  | _ => ""

def isStr : PyVal → Bool
  | .vstr _ => true
  | _ => false

/-- The string content of a `vstr` (only applied to strings). -/
def getStr : PyVal → String
  | .vstr s => s
  | _ => ""

/-- `'\n'.join(...)`. -/
def joinNl : List String → String
  | [] => ""
  | [s] => s
  | s :: rest => s ++ "\n" ++ joinNl rest

/-- `LLMService._format_template_value`.  The `json.dumps` try/except
fallback is not modelled: every `PyVal` serialises. -/
def format_template_value : PyVal → String
  | .vlist l =>
    if l.isEmpty then ""
    else if l.all hasTextKey then joinNl (l.map getText)
    else if l.all isStr then joinNl (l.map getStr)
    else joinNl (l.map pyStr)
  | .vdict d => jsonDumps 0 (.vdict d)
  | .vnone => ""
  | v => pyStr v

end LLMFmt

namespace Render

/-- The two brace characters, written via their code points. -/
def lbrace : Char := Char.ofNat 123

def rbrace : Char := Char.ofNat 125

/-- Python `s.replace(old, new)` for a non-empty `old` (left-to-right,
non-overlapping; the empty-pattern case never arises from `"{key}"`). -/
def strReplace (old new : List Char) : List Char → List Char
  | [] => []
  | c :: rest =>
    if old.isPrefixOf (c :: rest) ∧ old ≠ [] then
      new ++ strReplace old new ((c :: rest).drop old.length)
    else c :: strReplace old new rest
termination_by s => s.length
decreasing_by
  · rename_i h
    have hlen : old.length ≥ 1 := by
      rcases old with _ | ⟨o, os⟩
      · exact absurd rfl h.2
      · simp
    simp only [List.length_drop, List.length_cons]
    omega
  · simp

/-- The template loop of `LLMService.generate_with_template`: for each
`(key, value)` replace every occurrence of `{key}` with the formatted
value. -/
def renderLLM (vars : List (List Char × LLMFmt.PyVal)) (template : List Char) :
    List Char :=
  vars.foldl (fun acc kv =>
    strReplace (lbrace :: (kv.1 ++ [rbrace]))
      (LLMFmt.format_template_value kv.2).data acc) template

/-- The exceptions `str.format` can raise that matter to
`HTTPRequestHandler._render_template`. -/
inductive FmtErr where
  | keyError
  | valueError
  | indexError
deriving DecidableEq, Repr

mutual

/-- A model of Python `str.format(**ctx)`, faithful on the fragment the
handler relies on: literal text, doubled-brace escapes, simple named fields.
A single stray brace raises `ValueError`; an empty or all-digit field name
is positional and raises `IndexError` (no positional arguments are passed);
an unknown name raises `KeyError`.  Conversion and format-spec suffixes are
stripped from the name but their formatting effect is not modelled (no
claim exercises them). -/
def pyFormatScan (ctx : List (List Char × List Char)) :
    List Char → Except FmtErr (List Char)
  | [] => .ok []
  | [c1] =>
    if c1 = lbrace then .error .valueError
    else if c1 = rbrace then .error .valueError
    else .ok [c1]
  | c1 :: c2 :: rest2 =>
    if c1 = lbrace then
      if c2 = lbrace then
        match pyFormatScan ctx rest2 with
        | .ok t => .ok (lbrace :: t)
        | .error e => .error e
      else pyFormatField ctx [] (c2 :: rest2)
    else if c1 = rbrace then
      if c2 = rbrace then
        match pyFormatScan ctx rest2 with
        | .ok t => .ok (rbrace :: t)
        | .error e => .error e
      else .error .valueError
    else
      match pyFormatScan ctx (c2 :: rest2) with
      | .ok t => .ok (c1 :: t)
      | .error e => .error e

def pyFormatField (ctx : List (List Char × List Char)) (acc : List Char) :
    List Char → Except FmtErr (List Char)
  | [] => .error .valueError
  | c :: rest =>
    if c = rbrace then
      let content := acc.reverse
      let name := content.takeWhile (fun ch => !(ch == '!') && !(ch == ':'))
      if name.isEmpty || name.all Char.isDigit then .error .indexError
      else
        match ctx.find? (fun kv => kv.1 == name) with
        | some kv =>
          match pyFormatScan ctx rest with
          | .ok t => .ok (kv.2 ++ t)
          | .error e => .error e
        | none => .error .keyError
    else if c = lbrace then .error .valueError
    else pyFormatField ctx (c :: acc) rest

end

/-- `HTTPRequestHandler._render_template`: `template.format(**context)`,
catching only `KeyError` (which returns the template unchanged); every other
exception propagates. -/
def render_template (ctx : List (List Char × List Char)) (s : List Char) :
    Except FmtErr (List Char) :=
  match pyFormatScan ctx s with
  | .ok t => .ok t
  | .error .keyError => .ok s
  | .error e => .error e

theorem strReplace_of_not_infix (old new : List Char) :
    ∀ s : List Char, ¬ old <:+: s → strReplace old new s = s := by
  intro s
  induction s with
  | nil =>
    intro _
    simp [strReplace]
  | cons c rest ih =>
    intro hni
    have hnp : ¬ (old.isPrefixOf (c :: rest) ∧ old ≠ []) := by
      rintro ⟨hp, _⟩
      exact hni (List.isPrefixOf_iff_prefix.mp hp).isInfix
    rw [strReplace, if_neg hnp]
    have : ¬ old <:+: rest := fun h => hni (List.infix_cons h)
    rw [ih this]

theorem renderLLM_of_no_placeholder
    (vars : List (List Char × LLMFmt.PyVal)) (template : List Char)
    (h : ∀ kv ∈ vars, ¬ (lbrace :: (kv.1 ++ [rbrace])) <:+: template) :
    renderLLM vars template = template := by
  unfold renderLLM
  induction vars with
  | nil => rfl
  | cons kv rest ih =>
    have h1 := strReplace_of_not_infix (lbrace :: (kv.1 ++ [rbrace]))
      (LLMFmt.format_template_value kv.2).data template
      (h kv (List.mem_cons_self ..))
    rw [List.foldl_cons, h1]
    exact ih (fun kv' hkv' => h kv' (List.mem_cons_of_mem _ hkv'))

theorem pyFormatScan_no_brace (ctx : List (List Char × List Char)) :
    ∀ s : List Char, (∀ c ∈ s, c ≠ lbrace ∧ c ≠ rbrace) →
      pyFormatScan ctx s = .ok s := by
  intro s
  induction s with
  | nil =>
    intro _
    rfl
  | cons c rest ih =>
    intro h
    obtain ⟨h1, h2⟩ := h c (List.mem_cons_self ..)
    cases rest with
    | nil =>
      simp [pyFormatScan, h1, h2]
    | cons c2 rest2 =>
      have hrec := ih (fun x hx => h x (List.mem_cons_of_mem _ hx))
      simp only [pyFormatScan, if_neg h1, if_neg h2, hrec]

theorem render_template_no_brace (ctx : List (List Char × List Char))
    (s : List Char) (h : ∀ c ∈ s, c ≠ lbrace ∧ c ≠ rbrace) :
    render_template ctx s = .ok s := by
  unfold render_template
  rw [pyFormatScan_no_brace ctx s h]

theorem render_template_keyError (ctx : List (List Char × List Char))
    (s : List Char) (h : pyFormatScan ctx s = .error .keyError) :
    render_template ctx s = .ok s := by
  unfold render_template
  rw [h]

end Render

namespace Dispatch

/-- The four handler classes registered in `NodeHandlerService._handlers`. -/
inductive HandlerKind where
  | llmCall
  | httpRequest
  | faissSearch
  | dbWrite
deriving DecidableEq, Repr

/-- The `_handlers` registry dict, in insertion order. -/
def handlers : List (String × HandlerKind) :=
  [("llm_call", .llmCall), ("http_request", .httpRequest),
   ("faiss_search", .faissSearch), ("db_write", .dbWrite)]

/-- `NodeHandlerService.get_handler`: dict lookup; `none` is the
`ValueError("Unknown node type: ...")` (`UnknownNodeKind`) path. -/
def get_handler (node_type : String) : Option HandlerKind :=
  (handlers.find? (fun kv => kv.1 == node_type)).map (fun kv => kv.2)

end Dispatch

/-!
## Claims

One theorem per claim of the specification, with witnesses at concrete
inputs for the theorems that carry hypotheses, and counterexamples where
the code refutes the claim as stated.
-/

/-- C1: For every acyclic graph (duplicate-free node ids; edges referencing
only nodes in the node list) with at least one start node in which every
node is reachable from the start-node set, `GraphService.validate_graph`
succeeds and its `sorted_nodes` list is a permutation of all node ids such
that for every edge the source node id appears before the target node id. -/
theorem claim_C1_validate_acyclic_topological
    (nodes : List GraphSvc.NodeId) (edges : List GraphSvc.GEdge)
    (hN : nodes.Nodup) (hE : GraphSvc.EdgesWF nodes edges)
    (hA : GraphSvc.Acyclic edges)
    (hS : GraphSvc.startNodes nodes edges ≠ [])
    (hR : ∀ n ∈ nodes, ∃ s ∈ GraphSvc.startNodes nodes edges,
      Relation.ReflTransGen (GraphSvc.ERel edges) s n) :
    ∃ r : GraphSvc.ValidationResult,
      GraphSvc.validate_graph nodes edges false = some (.ok r) ∧
      r.sorted_nodes.Perm nodes ∧
      ∀ e ∈ edges, GraphSvc.idxIn r.sorted_nodes e.1 <
        GraphSvc.idxIn r.sorted_nodes e.2 :=
  GraphSvc.validate_graph_acyclic hN hE hA hS hR

/-- Witness for C1 on the branching graph 1 → 2, 1 → 3. -/
theorem claim_C1_validate_acyclic_topological_witness :
    ∃ r : GraphSvc.ValidationResult,
      GraphSvc.validate_graph [1, 2, 3] [(1, 2), (1, 3)] false = some (.ok r) ∧
      r.sorted_nodes.Perm [1, 2, 3] ∧
      ∀ e ∈ [((1 : Nat), (2 : Nat)), (1, 3)],
        GraphSvc.idxIn r.sorted_nodes e.1 < GraphSvc.idxIn r.sorted_nodes e.2 :=
  claim_C1_validate_acyclic_topological [1, 2, 3] [(1, 2), (1, 3)]
    (by decide) (by decide)
    (GraphSvc.acyclic_of_increasing _ (by decide))
    (by decide)
    (by
      intro n hn
      have h1 : (1 : Nat) ∈ GraphSvc.startNodes [1, 2, 3] [(1, 2), (1, 3)] := by
        decide
      have hn' : n = 1 ∨ n = 2 ∨ n = 3 := by simpa using hn
      rcases hn' with rfl | rfl | rfl
      · exact ⟨1, h1, Relation.ReflTransGen.refl⟩
      · exact ⟨1, h1, Relation.ReflTransGen.single (by decide)⟩
      · exact ⟨1, h1, Relation.ReflTransGen.single (by decide)⟩)

/-- C2: If a node fails during execution, the orchestrator attempts no
further node: the produced node-execution records are exactly those of the
nodes up to and including the failing one, and no record exists for any
node after the failing node in the validated execution order (in
particular, for any node reachable only through it). -/
theorem claim_C2_fail_fast_no_downstream_records {α : Type}
    (nodeIds : List GraphSvc.NodeId)
    (handler : GraphSvc.NodeId → Except String α)
    (order pre post : List GraphSvc.NodeId) (bad : GraphSvc.NodeId)
    (clock : Nat) (msg : String)
    (hord : order = pre ++ bad :: post)
    (hnodup : order.Nodup)
    (hmem : ∀ n ∈ order, n ∈ nodeIds)
    (hpre : ∀ n ∈ pre, ∃ out, handler n = .ok out)
    (hbad : handler bad = .error msg) :
    ∃ recs, ExecSvc.execute_nodes nodeIds handler order clock =
        (recs, .error ("Node failed: " ++ msg)) ∧
      recs.map (fun r => r.node_id) = pre ++ [bad] ∧
      ∀ m ∈ post, ¬ ∃ r ∈ recs, r.node_id = m := by
  subst hord
  obtain ⟨newRecs, outs', hrun, hmap⟩ :=
    ExecSvc.execute_nodes_loop_fail nodeIds handler msg pre post bad 0 clock [] []
      (by
        intro n hn
        apply hmem
        rcases List.mem_append.mp hn with h | h
        · exact List.mem_append_left _ h
        · rcases List.mem_singleton.mp h with rfl
          exact List.mem_append_right _ (List.mem_cons_self ..))
      hpre hbad
  rw [List.nil_append] at hrun
  refine ⟨newRecs, ?_, hmap, ?_⟩
  · unfold ExecSvc.execute_nodes
    rw [hrun]
  · rintro m hm ⟨r, hr, hrm⟩
    have hmmap : m ∈ newRecs.map (fun r => r.node_id) := by
      rw [List.mem_map]
      exact ⟨r, hr, hrm⟩
    rw [hmap] at hmmap
    have hdisj := List.disjoint_of_nodup_append hnodup
    rcases List.mem_append.mp hmmap with h | h
    · exact hdisj h (List.mem_cons_of_mem _ hm)
    · have hmb : m = bad := List.mem_singleton.mp h
      have hnd2 : (bad :: post).Nodup := hnodup.of_append_right
      exact (List.nodup_cons.mp hnd2).1 (hmb ▸ hm)

/-- Witness for C2: order 1, 2, 3 where node 2 fails — node 3 gets no
record. -/
theorem claim_C2_fail_fast_no_downstream_records_witness :
    ∃ recs, ExecSvc.execute_nodes [1, 2, 3]
        (fun n => if n = 2 then .error "boom" else .ok (0 : Nat))
        [1, 2, 3] 5 =
        (recs, .error ("Node failed: " ++ "boom")) ∧
      recs.map (fun r => r.node_id) = [1] ++ [2] ∧
      ∀ m ∈ [(3 : GraphSvc.NodeId)], ¬ ∃ r ∈ recs, r.node_id = m :=
  claim_C2_fail_fast_no_downstream_records [1, 2, 3]
    (fun n => if n = 2 then .error "boom" else .ok (0 : Nat))
    [1, 2, 3] [1] [3] 2 5 "boom" rfl (by decide) (by decide)
    (by
      intro n hn
      have hn' : n = 1 := by simpa using hn
      subst hn'
      exact ⟨0, rfl⟩)
    rfl

/-- C3 (code bug): the claim states every run ends in a terminal status with
`completedAt` set and `completedAt ≥ startedAt`.  The run does end in
`success`/`failed`, but `update_run_status` only recognises `"completed"`
and `"failed"` as terminal while `execute_workflow` reports success as
`"success"`, so a successful run keeps `completed_at = None` forever: here a
one-node workflow executes successfully and its run row has status
`"success"` with no completion timestamp. -/
theorem claim_C3_success_run_completed_at_unset :
    ∃ w run, ExecSvc.execute_workflow (α := Nat) [1] [] (fun _ => .ok 0) 0 =
        some w ∧
      w.run = some run ∧ run.status = "success" ∧ run.started_at = 0 ∧
      run.completed_at = none :=
  ⟨_, _, rfl, rfl, rfl, rfl, rfl⟩

/-- C4 counterexample: the pure cycle 0 → 1 → 2 → 0 (a non-empty graph
containing a cycle) makes `validate_graph` raise `NoStartNodeError`, not
`CycleError` as the claim states: every node has an incoming edge, so the
start-node check fires first. -/
theorem claim_C4_counterexample :
    Relation.TransGen (GraphSvc.ERel [(0, 1), (1, 2), (2, 0)]) 0 0 ∧
    GraphSvc.validate_graph [0, 1, 2] [(0, 1), (1, 2), (2, 0)] false =
      some (.error GraphSvc.GraphError.noStartNode) ∧
    GraphSvc.validate_graph [0, 1, 2] [(0, 1), (1, 2), (2, 0)] false ≠
      some (.error GraphSvc.GraphError.cycleDetected) := by
  refine ⟨?_, by decide, by decide⟩
  have e01 : GraphSvc.ERel [(0, 1), (1, 2), (2, 0)] 0 1 := by decide
  have e12 : GraphSvc.ERel [(0, 1), (1, 2), (2, 0)] 1 2 := by decide
  have e20 : GraphSvc.ERel [(0, 1), (1, 2), (2, 0)] 2 0 := by decide
  exact Relation.TransGen.head e01
    (Relation.TransGen.head e12 (Relation.TransGen.single e20))

/-- C4 (amended): every non-empty well-formed graph containing a cycle fails
validation and never returns an order; the error is `CycleDetected` whenever
at least one start node exists, and `NoStartNode` otherwise (e.g. for the
pure cycle A→B→C→A, where every node has an incoming edge). -/
theorem claim_C4_cycle_validation_fails
    (nodes : List GraphSvc.NodeId) (edges : List GraphSvc.GEdge)
    (hN : nodes.Nodup) (hE : GraphSvc.EdgesWF nodes edges)
    (hC : ∃ v, Relation.TransGen (GraphSvc.ERel edges) v v) (ad : Bool) :
    ∃ e, GraphSvc.validate_graph nodes edges ad = some (.error e) ∧
      (e = GraphSvc.GraphError.cycleDetected ∨
        e = GraphSvc.GraphError.noStartNode) ∧
      (GraphSvc.startNodes nodes edges ≠ [] →
        e = GraphSvc.GraphError.cycleDetected) :=
  GraphSvc.validate_graph_cycle hN hE hC ad

/-- Witness for C4 (amended) on 0 → 1 → 2 → 1 (cycle, start node 0). -/
theorem claim_C4_cycle_validation_fails_witness :
    ∃ e, GraphSvc.validate_graph [0, 1, 2] [(0, 1), (1, 2), (2, 1)] false =
        some (.error e) ∧
      (e = GraphSvc.GraphError.cycleDetected ∨
        e = GraphSvc.GraphError.noStartNode) ∧
      (GraphSvc.startNodes [0, 1, 2] [(0, 1), (1, 2), (2, 1)] ≠ [] →
        e = GraphSvc.GraphError.cycleDetected) :=
  claim_C4_cycle_validation_fails [0, 1, 2] [(0, 1), (1, 2), (2, 1)]
    (by decide) (by decide)
    ⟨1, Relation.TransGen.head
      (show GraphSvc.ERel [(0, 1), (1, 2), (2, 1)] 1 2 by decide)
      (Relation.TransGen.single
        (show GraphSvc.ERel [(0, 1), (1, 2), (2, 1)] 2 1 by decide))⟩
    false

/-- C5: whenever graph validation fails (any of the four graph errors), or
the workflow has zero nodes, `execute_workflow` reports a client-facing
HTTP 400 error and neither a run record nor any node-execution record is
created. -/
theorem claim_C5_validation_failure_no_run {α : Type}
    (nodes : List GraphSvc.NodeId) (edges : List GraphSvc.GEdge)
    (handler : GraphSvc.NodeId → Except String α) (t0 : Nat) :
    (∀ e : GraphSvc.GraphError,
      GraphSvc.validate_graph nodes edges false = some (.error e) →
      ExecSvc.execute_workflow nodes edges handler t0 = some ⟨none, [], 400⟩) ∧
    (nodes = [] →
      ExecSvc.execute_workflow nodes edges handler t0 = some ⟨none, [], 400⟩) := by
  constructor
  · intro e hval
    unfold ExecSvc.execute_workflow
    by_cases hemp : nodes.isEmpty
    · rw [if_pos hemp]
    · rw [if_neg hemp, hval]
  · intro h
    subst h
    rfl

/-- Witness for C5: a pure 3-cycle (validation fails) and an empty workflow
both yield HTTP 400 with no run row and no node-execution rows. -/
theorem claim_C5_validation_failure_no_run_witness :
    ExecSvc.execute_workflow (α := Nat) [0, 1, 2] [(0, 1), (1, 2), (2, 0)]
        (fun _ => .ok 0) 7 = some ⟨none, [], 400⟩ ∧
    ExecSvc.execute_workflow (α := Nat) [] [] (fun _ => .ok 0) 7 =
      some ⟨none, [], 400⟩ :=
  ⟨(claim_C5_validation_failure_no_run [0, 1, 2] [(0, 1), (1, 2), (2, 0)]
      (fun _ => .ok 0) 7).1 GraphSvc.GraphError.noStartNode (by decide),
   (claim_C5_validation_failure_no_run [] [] (fun _ => .ok 0) 7).2 rfl⟩

/-- C6 counterexample: with nodes 0, 1, 2 and edges 0 → 2, 0 → 1, the
nodes 1 and 2 become ready at the same step (after 0 is emitted), the input
node list has 1 before 2, yet `sorted_nodes` is 0, 2, 1 — the later
simultaneous tie is broken by edge-list order, not node-list order, so the
claim as stated is false. -/
theorem claim_C6_counterexample :
    GraphSvc.validate_graph [0, 1, 2] [(0, 2), (0, 1)] false =
      some (.ok ⟨[0], [0, 2, 1], [0, 2, 1], []⟩) ∧
    GraphSvc.idxIn [0, 1, 2] 1 < GraphSvc.idxIn [0, 1, 2] 2 ∧
    GraphSvc.idxIn [0, 2, 1] 2 < GraphSvc.idxIn [0, 2, 1] 1 :=
  ⟨by decide, by decide, by decide⟩

/-- C6 (amended): the initially-ready nodes (in-degree zero) form a prefix
of `sorted_nodes` in node-list order; nodes becoming ready at a later step
are appended in the order their in-degree reaches zero, which follows
edge-list order among children of the same node, not node-list order.  The
sort itself is a pure function of the node and edge lists, so two calls on
the same input return the identical `sorted_nodes` list. -/
theorem claim_C6_start_nodes_prefix
    (nodes : List GraphSvc.NodeId) (edges : List GraphSvc.GEdge) (ad : Bool)
    (r : GraphSvc.ValidationResult)
    (h : GraphSvc.validate_graph nodes edges ad = some (.ok r)) :
    r.start_nodes = GraphSvc.startNodes nodes edges ∧
      r.start_nodes <+: r.sorted_nodes :=
  GraphSvc.validate_graph_start_prefix h

/-- Witness for C6 (amended) on the diamond 0 → 1, 0 → 2, 1 → 3, 2 → 3. -/
theorem claim_C6_start_nodes_prefix_witness :
    ([0] : List GraphSvc.NodeId) =
        GraphSvc.startNodes [0, 1, 2, 3] [(0, 1), (0, 2), (1, 3), (2, 3)] ∧
      ([0] : List GraphSvc.NodeId) <+: [0, 1, 2, 3] :=
  claim_C6_start_nodes_prefix [0, 1, 2, 3] [(0, 1), (0, 2), (1, 3), (2, 3)]
    false ⟨[0], [0, 1, 2, 3], [0, 1, 2, 3], []⟩ (by decide)

/-- C7 counterexample: the `str.format`-based renderer is not the identity
on every string with no matching placeholder — with an empty context (so no
`\x7bkey\x7d` matches any key), the template `"\x7b\x7bx\x7d\x7d"` is
rewritten to `"\x7bx\x7d"` because `str.format` unescapes doubled braces. -/
theorem claim_C7_counterexample :
    Render.render_template []
        [Render.lbrace, Render.lbrace, 'x', Render.rbrace, Render.rbrace] =
      .ok [Render.lbrace, 'x', Render.rbrace] ∧
    Render.render_template []
        [Render.lbrace, Render.lbrace, 'x', Render.rbrace, Render.rbrace] ≠
      .ok [Render.lbrace, Render.lbrace, 'x', Render.rbrace, Render.rbrace] :=
  ⟨by decide, by decide⟩

/-- C7 (amended): the replace-based LLM renderer is the identity on every
string containing no `\x7bkey\x7d` substring for a key of the context; the
`str.format`-based renderer is the identity on strings containing no brace
characters at all, and also returns the template unchanged whenever
formatting raises `KeyError` (unknown placeholder) — but brace escapes are
rewritten and stray/positional fields raise, so it is not the identity on
all brace-bearing strings. -/
theorem claim_C7_render_identity :
    (∀ (vars : List (List Char × LLMFmt.PyVal)) (template : List Char),
      (∀ kv ∈ vars,
        ¬ (Render.lbrace :: (kv.1 ++ [Render.rbrace])) <:+: template) →
      Render.renderLLM vars template = template) ∧
    (∀ (ctx : List (List Char × List Char)) (s : List Char),
      (∀ c ∈ s, c ≠ Render.lbrace ∧ c ≠ Render.rbrace) →
      Render.render_template ctx s = .ok s) ∧
    (∀ (ctx : List (List Char × List Char)) (s : List Char),
      Render.pyFormatScan ctx s = .error .keyError →
      Render.render_template ctx s = .ok s) :=
  ⟨Render.renderLLM_of_no_placeholder, Render.render_template_no_brace,
    Render.render_template_keyError⟩

/-- Witness for C7 (amended): a placeholder-free template through the LLM
renderer, a brace-free string through the format renderer, and an unknown
placeholder hitting the `KeyError` fallback. -/
theorem claim_C7_render_identity_witness :
    Render.renderLLM [(['x'], .vstr "V")] ['a', 'b'] = ['a', 'b'] ∧
    Render.render_template [] ['a', 'b'] = .ok ['a', 'b'] ∧
    Render.render_template [] [Render.lbrace, 'y', Render.rbrace] =
      .ok [Render.lbrace, 'y', Render.rbrace] :=
  ⟨claim_C7_render_identity.1 [(['x'], .vstr "V")] ['a', 'b']
      (by
        intro kv hkv hinf
        have hlen := hinf.length_le
        have hkv' : kv.1 = ['x'] := by
          rcases List.mem_singleton.mp hkv with rfl
          rfl
        rw [hkv'] at hlen
        simp at hlen),
    claim_C7_render_identity.2.1 [] ['a', 'b'] (by decide),
    claim_C7_render_identity.2.2 [] [Render.lbrace, 'y', Render.rbrace]
      (by decide)⟩

/-- C8 counterexample: a list whose elements are neither all
text-mappings nor all strings (e.g. `[1, 2]`) is newline-joined
element-wise by the code (`"1\n2"`), not mapped to its natural string form
`str([1, 2]) = "[1, 2]"` as the claim's catch-all clause states. -/
theorem claim_C8_counterexample :
    LLMFmt.format_template_value (.vlist [.vint 1, .vint 2]) = "1\n2" ∧
    LLMFmt.pyStr (.vlist [.vint 1, .vint 2]) = "[1, 2]" ∧
    ("1\n2" : String) ≠ "[1, 2]" :=
  ⟨by decide, by decide, by decide⟩

/-- C8 (amended): the value formatter maps a list of mappings that all
contain a `text` key to the newline-join of (the string forms of) those
text values; a list of strings to their newline-join; any other non-empty
list to the newline-join of its elements' natural string forms; a mapping
to its indented JSON rendering; `None` to the empty string; and every
scalar to its natural string form. -/
theorem claim_C8_format_value_cases :
    (∀ l : List LLMFmt.PyVal, l.all LLMFmt.hasTextKey = true →
      LLMFmt.format_template_value (.vlist l) =
        LLMFmt.joinNl (l.map LLMFmt.getText)) ∧
    (∀ l : List LLMFmt.PyVal, l.all LLMFmt.isStr = true →
      LLMFmt.format_template_value (.vlist l) =
        LLMFmt.joinNl (l.map LLMFmt.getStr)) ∧
    (∀ l : List LLMFmt.PyVal, l ≠ [] → ¬ l.all LLMFmt.hasTextKey = true →
      ¬ l.all LLMFmt.isStr = true →
      LLMFmt.format_template_value (.vlist l) =
        LLMFmt.joinNl (l.map LLMFmt.pyStr)) ∧
    (∀ d : List (String × LLMFmt.PyVal),
      LLMFmt.format_template_value (.vdict d) = LLMFmt.jsonDumps 0 (.vdict d)) ∧
    (LLMFmt.format_template_value .vnone = "") ∧
    (∀ s, LLMFmt.format_template_value (.vstr s) = s) ∧
    (∀ n, LLMFmt.format_template_value (.vint n) = toString n) ∧
    (∀ b, LLMFmt.format_template_value (.vbool b) =
      (if b then "True" else "False")) := by
  refine ⟨?_, ?_, ?_, fun d => rfl, rfl, fun s => rfl, fun n => rfl, fun b => rfl⟩
  · intro l h
    cases l with
    | nil => rfl
    | cons v rest =>
      simp only [LLMFmt.format_template_value, List.isEmpty_cons, h]
      rfl
  · intro l h
    cases l with
    | nil => rfl
    | cons v rest =>
      have hv : LLMFmt.isStr v = true := by
        have := h
        rw [List.all_cons, Bool.and_eq_true] at this
        exact this.1
      have hnt : (v :: rest).all LLMFmt.hasTextKey = false := by
        rw [List.all_cons]
        cases v <;> simp [LLMFmt.hasTextKey] <;> cases hv
      simp only [LLMFmt.format_template_value, List.isEmpty_cons, hnt, h]
      rfl
  · intro l h1 h2 h3
    cases l with
    | nil => exact absurd rfl h1
    | cons v rest =>
      have h2' : (v :: rest).all LLMFmt.hasTextKey = false :=
        Bool.eq_false_iff.mpr h2
      have h3' : (v :: rest).all LLMFmt.isStr = false :=
        Bool.eq_false_iff.mpr h3
      simp only [LLMFmt.format_template_value, List.isEmpty_cons, h2', h3']
      rfl

/-- Witness for C8 (amended) on a text-mapping list, a string list, a mixed
list, a mapping, `None` and the scalars. -/
theorem claim_C8_format_value_cases_witness :
    LLMFmt.format_template_value (.vlist [.vdict [("text", .vstr "a")]]) =
      LLMFmt.joinNl ([LLMFmt.PyVal.vdict [("text", .vstr "a")]].map
        LLMFmt.getText) ∧
    LLMFmt.format_template_value (.vlist [.vstr "x", .vstr "y"]) =
      LLMFmt.joinNl ([LLMFmt.PyVal.vstr "x", .vstr "y"].map LLMFmt.getStr) ∧
    LLMFmt.format_template_value (.vlist [.vint 1, .vbool true]) =
      LLMFmt.joinNl ([LLMFmt.PyVal.vint 1, .vbool true].map LLMFmt.pyStr) :=
  ⟨claim_C8_format_value_cases.1 [.vdict [("text", .vstr "a")]] (by decide),
    claim_C8_format_value_cases.2.1 [.vstr "x", .vstr "y"] (by decide),
    claim_C8_format_value_cases.2.2.1 [.vint 1, .vbool true]
      (List.cons_ne_nil _ _) (by decide) (by decide)⟩

/-- C9 counterexample: the registry's third tag is `faiss_search`, not
`vector_search` — dispatching `vector_search` fails with `UnknownNodeKind`
while the claim says it must return a handler. -/
theorem claim_C9_counterexample :
    Dispatch.get_handler "vector_search" = none ∧
    Dispatch.get_handler "faiss_search" = some .faissSearch :=
  ⟨rfl, rfl⟩

/-- C9 (amended): handler dispatch succeeds exactly for the four tags of
the closed enumeration llm_call, http_request, faiss_search, db_write, and
fails with `UnknownNodeKind` for every other tag. -/
theorem claim_C9_dispatch_closed_set :
    Dispatch.get_handler "llm_call" = some .llmCall ∧
    Dispatch.get_handler "http_request" = some .httpRequest ∧
    Dispatch.get_handler "faiss_search" = some .faissSearch ∧
    Dispatch.get_handler "db_write" = some .dbWrite ∧
    (∀ t : String,
      t ∉ ["llm_call", "http_request", "faiss_search", "db_write"] →
      Dispatch.get_handler t = none) := by
  refine ⟨rfl, rfl, rfl, rfl, ?_⟩
  intro t ht
  simp only [List.mem_cons, List.mem_singleton, not_or] at ht
  obtain ⟨h1, h2, h3, h4, -⟩ := ht
  unfold Dispatch.get_handler Dispatch.handlers
  have b1 : ("llm_call" == t) = false := by
    simp [Ne.symm h1]
  have b2 : ("http_request" == t) = false := by
    simp [Ne.symm h2]
  have b3 : ("faiss_search" == t) = false := by
    simp [Ne.symm h3]
  have b4 : ("db_write" == t) = false := by
    simp [Ne.symm h4]
  simp [List.find?, b1, b2, b3, b4]

/-- Witness for C9 (amended): an arbitrary unknown tag is rejected. -/
theorem claim_C9_dispatch_closed_set_witness :
    Dispatch.get_handler "llm_call" = some .llmCall ∧
    Dispatch.get_handler "webhook" = none :=
  ⟨claim_C9_dispatch_closed_set.1,
    claim_C9_dispatch_closed_set.2.2.2.2 "webhook" (by decide)⟩

/-- C10: for every well-formed input (edges referencing only listed,
duplicate-free node ids) `validate_graph` never raises
`DisconnectedGraphError`: whenever the reachable set misses a node, the
`UnreachableNodeError` branch fires first, so the `DisconnectedGraph`
branch is unreachable. -/
theorem claim_C10_no_disconnected_error
    (nodes : List GraphSvc.NodeId) (edges : List GraphSvc.GEdge)
    (hN : nodes.Nodup) (hE : GraphSvc.EdgesWF nodes edges) (ad : Bool) :
    GraphSvc.validate_graph nodes edges ad ≠
      some (.error GraphSvc.GraphError.disconnectedGraph) :=
  GraphSvc.validate_graph_no_disconnected hN hE ad

/-- Witness for C10 at a two-node chain. -/
theorem claim_C10_no_disconnected_error_witness :
    GraphSvc.validate_graph [1, 2] [(1, 2)] false ≠
      some (.error GraphSvc.GraphError.disconnectedGraph) :=
  claim_C10_no_disconnected_error [1, 2] [(1, 2)] (by decide) (by decide) false
